import Mathlib

/-!
Verification of the text-buffer core of the `fresh` editor repository.

The definitions below are a shallow embedding of `src/buffer.rs` and
`src/chunked_search.rs`.  Buffer content is a `List Nat` of byte values.
The repository's `virtual_buffer.rs` and `line_cache.rs` are not part of
the provided sources; the Byte Cursor and the Line Index Cache are
therefore modelled from the specification (spec sections 4.2, 4.3 and 4.5),
which fully describes their observable operations.  All loops are embedded
as fuel-indexed structural recursions; callers pass fuel that is proved
sufficient in the characterisation lemmas.
-/

set_option maxHeartbeats 1000000

/-- Modelled from the spec (section 4.3, Byte Cursor; `virtual_buffer.rs` is
not among the provided sources): a position plus the pinned snapshot. -/
structure ByteIterator where
  content : List Nat
  pos : Nat
deriving DecidableEq, Repr

/-- Modelled from the spec: `peek()` - byte at current position without
moving, or none at end. -/
def ByteIterator.peek (it : ByteIterator) : Option Nat :=
  it.content[it.pos]?

/-- Modelled from the spec: `next()` - returns the byte at the current
position and advances by one, or none at end. -/
def ByteIterator.next (it : ByteIterator) : Option Nat × ByteIterator :=
  match it.content[it.pos]? with
  | some b => (some b, { it with pos := it.pos + 1 })
  | none => (none, it)

/-- Modelled from the spec: `prev()` - retreats by one and returns the new
current byte, or none at position 0. -/
def ByteIterator.prev (it : ByteIterator) : Option Nat × ByteIterator :=
  if it.pos = 0 then (none, it)
  else
    let it' : ByteIterator := { it with pos := it.pos - 1 }
    (it'.content[it'.pos]?, it')

/-- Modelled from the spec: `seek(pos)` - jumps arbitrarily within `[0, len]`. -/
def ByteIterator.seek (it : ByteIterator) (p : Nat) : ByteIterator :=
  { it with pos := min p it.content.length }

/-- Modelled from the spec: `buffer_len()` - cached total length. -/
def ByteIterator.buffer_len (it : ByteIterator) : Nat :=
  it.content.length

/-- Modelled from the spec: `iter_at(pos)` of the Snapshot Store. -/
def iterAt (content : List Nat) (p : Nat) : ByteIterator :=
  ⟨content, min p content.length⟩

/-- Contiguous byte range `[a, b)` of a list (Rust slice `&l[a..b]`,
clamped at the end like `VirtualBuffer::read`). -/
def sliceL (l : List Nat) (a b : Nat) : List Nat :=
  (l.drop a).take (b - a)

/-- `Buffer` state relevant to the mutation claims: the byte content and the
modified flag (`Buffer` fields `virtual_buffer` and `modified` in
`src/buffer.rs:62`). -/
structure Buffer where
  content : List Nat
  modified : Bool
deriving DecidableEq, Repr

/-- Modelled from the spec (section 4.1, Content Tree `insert`;
`chunk_tree.rs` is not among the provided sources): splice the new bytes in
at the offset. -/
def insertBytes (content : List Nat) (pos : Nat) (text : List Nat) : List Nat :=
  content.take pos ++ text ++ content.drop pos

/-- Modelled from the spec (section 4.1, Content Tree `delete`): remove the
byte range `[s, e)`. -/
def deleteBytes (content : List Nat) (s e : Nat) : List Nat :=
  content.take s ++ content.drop e

/-- `Buffer::insert` (`src/buffer.rs:146-152`): early return on empty text,
otherwise splice and set `modified`. -/
def Buffer.insert (b : Buffer) (pos : Nat) (text : List Nat) : Buffer :=
  if text = [] then b
  else { content := insertBytes b.content pos text, modified := true }

/-- `Buffer::delete` (`src/buffer.rs:155-161`): early return on an empty
range (`start >= end`), otherwise delete and set `modified`. -/
def Buffer.delete (b : Buffer) (s e : Nat) : Buffer :=
  if e ≤ s then b
  else { content := deleteBytes b.content s e, modified := true }

/-- `Buffer::find_pattern` (`src/buffer.rs:338-344`): naive scan over every
candidate start offset, first hit wins. -/
def findPattern (haystack needle : List Nat) : Option Nat :=
  if needle = [] ∨ haystack.length < needle.length then none
  else (List.range (haystack.length - needle.length + 1)).find?
    fun i => decide (sliceL haystack i (i + needle.length) = needle)

/-- `ChunkInfo` (`src/chunked_search.rs:13-23`). -/
structure ChunkInfo where
  buffer : List Nat
  absolute_pos : Nat
  valid_start : Nat
deriving DecidableEq, Repr

/-- `OverlappingChunks` iterator state (`src/chunked_search.rs:52-61`). -/
structure OverlappingChunks where
  iter : ByteIterator
  buffer : List Nat
  buffer_start_pos : Nat
  current_read_pos : Nat
  endp : Nat
  chunk_size : Nat
  overlap : Nat
  first_chunk : Bool
deriving DecidableEq, Repr

/-- `OverlappingChunks::new` (`src/chunked_search.rs:78-95`). -/
def OverlappingChunks.new (it : ByteIterator) (start endp chunk_size overlap : Nat) :
    OverlappingChunks :=
  ⟨it, [], start, start, endp, chunk_size, overlap, true⟩

/-- The byte-pulling loop shared by both branches of
`OverlappingChunks::fill_next_chunk` (`src/chunked_search.rs:102-108` and
`127-134`): pull bytes while the buffer is below `target` and the read
position is before `end`. -/
def fillLoop (target : Nat) : Nat → OverlappingChunks → OverlappingChunks
  | 0, st => st
  | fuel + 1, st =>
    if st.buffer.length < target ∧ st.current_read_pos < st.endp then
      match st.iter.next with
      | (some b, it') =>
        fillLoop target fuel
          { st with iter := it', buffer := st.buffer ++ [b],
                    current_read_pos := st.current_read_pos + 1 }
      | (none, _) => st
    else st

/-- `OverlappingChunks::fill_next_chunk` (`src/chunked_search.rs:98-139`). -/
def fillNextChunk (st : OverlappingChunks) : Bool × OverlappingChunks :=
  if st.first_chunk then
    let st1 := { st with first_chunk := false }
    let st2 := fillLoop st.chunk_size (st.chunk_size + 1) st1
    (st2.buffer ≠ [], st2)
  else if st.endp ≤ st.current_read_pos then (false, st)
  else
    let st1 :=
      if st.overlap < st.buffer.length then
        { st with
            buffer := st.buffer.drop (st.buffer.length - st.overlap),
            buffer_start_pos :=
              st.buffer_start_pos + (st.buffer.length - st.overlap) }
      else st
    let target := st1.overlap + st1.chunk_size
    let st2 := fillLoop target (target + 1) st1
    (st1.buffer.length < st2.buffer.length, st2)

/-- `<OverlappingChunks as Iterator>::next` (`src/chunked_search.rs:145-166`). -/
def chunksNext (st : OverlappingChunks) : Option (ChunkInfo × OverlappingChunks) :=
  let is_first := st.buffer_start_pos = st.current_read_pos
  match fillNextChunk st with
  | (false, _) => none
  | (true, st') =>
    let valid_start := if is_first then 0 else min st'.overlap st'.buffer.length
    some (⟨st'.buffer, st'.buffer_start_pos, valid_start⟩, st')

/-- Iterate `chunksNext` to a list of chunks (fuel-indexed). -/
def chunksFrom : Nat → OverlappingChunks → List ChunkInfo
  | 0, _ => []
  | fuel + 1, st =>
    match chunksNext st with
    | none => []
    | some (c, st') => c :: chunksFrom fuel st'

/-- The full window stream over `[0, L)` for a content of length `L`
(spec section 4.4; used by claim C2). -/
def chunkWindows (content : List Nat) (cs ov : Nat) : List ChunkInfo :=
  chunksFrom (content.length + 2)
    (OverlappingChunks.new (iterAt content 0) 0 content.length cs ov)

/-- The chunk-consuming loop of `Buffer::find_pattern_streaming`
(`src/buffer.rs:262-275`): search each chunk's whole buffer, accept a match
only if it ends after `valid_start` and its absolute end is within `end`. -/
def searchGo (pattern : List Nat) (endp : Nat) : Nat → OverlappingChunks → Option Nat
  | 0, _ => none
  | fuel + 1, st =>
    match chunksNext st with
    | none => none
    | some (c, st') =>
      match findPattern c.buffer pattern with
      | some offset =>
        if c.valid_start < offset + pattern.length then
          if c.absolute_pos + offset + pattern.length ≤ endp then
            some (c.absolute_pos + offset)
          else searchGo pattern endp fuel st'
        else searchGo pattern endp fuel st'
      | none => searchGo pattern endp fuel st'

/-- `Buffer::find_pattern_streaming` (`src/buffer.rs:252-278`):
`CHUNK_SIZE = 4096`, `overlap = pattern.len() - 1`. -/
def findPatternStreaming (content : List Nat) (start endp : Nat)
    (pattern : List Nat) : Option Nat :=
  if pattern = [] ∨ endp ≤ start then none
  else
    searchGo pattern endp (endp + 2 - start)
      (OverlappingChunks.new (iterAt content start) start endp 4096
        (pattern.length - 1))

/-- `Buffer::find_next` (`src/buffer.rs:225-248`): empty pattern returns
none; search `[start, len)`, then wrap and search `[0, start)`. -/
def findNext (content pattern : List Nat) (start_pos : Nat) : Option Nat :=
  if pattern = [] then none
  else
    let r1 :=
      if start_pos < content.length then
        findPatternStreaming content start_pos content.length pattern
      else none
    match r1 with
    | some o => some o
    | none =>
      if 0 < start_pos then findPatternStreaming content 0 start_pos pattern
      else none

/-- Specification-side predicate: the pattern occurs in the content at
offset `o` ("`P` occurs in `C`" by exhaustive comparison). -/
def occursAt (content pattern : List Nat) (o : Nat) : Prop :=
  o + pattern.length ≤ content.length ∧
    sliceL content o (o + pattern.length) = pattern

instance (content pattern : List Nat) (o : Nat) :
    Decidable (occursAt content pattern o) := by
  unfold occursAt; infer_instance

/-- Specification-side exhaustive scan: the first offset `o` with
`a ≤ o`, `o + |P| ≤ b`, at which `P` occurs in `C`. -/
def firstOccIn (content pattern : List Nat) (a b : Nat) : Option Nat :=
  (List.range (content.length + 1)).find?
    fun o => decide (a ≤ o ∧ o + pattern.length ≤ b ∧ occursAt content pattern o)

/-- The backward scan shared by `LineIterator::new` (`src/buffer.rs:771-777`)
and `LineIterator::prev` (`src/buffer.rs:824-830`): step back until the byte
before the cursor is a newline (then stand just past it) or position 0. -/
def scanBack : Nat → ByteIterator → ByteIterator
  | 0, it => it
  | fuel + 1, it =>
    if it.pos = 0 then it
    else
      let it1 := (it.prev).2
      match it1.peek with
      | some 10 => (it1.next).2
      | _ => scanBack fuel it1

/-- The forward read loop shared by `LineIterator::next`
(`src/buffer.rs:795-806`) and `LineIterator::prev` (`src/buffer.rs:836-847`):
read bytes until a newline (inclusive) or end of buffer. -/
def readLineLoop : Nat → ByteIterator → List Nat → List Nat × ByteIterator
  | 0, it, acc => (acc, it)
  | fuel + 1, it, acc =>
    match it.next with
    | (some 10, it') => (acc ++ [10], it')
    | (some b, it') => readLineLoop fuel it' (acc ++ [b])
    | (none, it') => (acc, it')

/-- `LineIterator` (`src/buffer.rs:760-762`). -/
structure LineIterator where
  byte_iter : ByteIterator
deriving DecidableEq, Repr

/-- `LineIterator::new` (`src/buffer.rs:767-780`): position the cursor at the
start of the line containing `byte_pos`. -/
def LineIterator.new (content : List Nat) (byte_pos : Nat) : LineIterator :=
  let it0 := iterAt content (min byte_pos content.length)
  ⟨scanBack it0.pos it0⟩

/-- `Buffer::line_iterator` (`src/buffer.rs:218-220`). -/
def lineIterator (content : List Nat) (byte_pos : Nat) : LineIterator :=
  LineIterator.new content byte_pos

/-- `LineIterator::next` (`src/buffer.rs:784-809`): read the line forward,
leaving the cursor just past it.  Line content is the raw byte list (the
source converts it to a string with a lossless decode on valid UTF-8). -/
def LineIterator.next (li : LineIterator) : Option ((Nat × List Nat) × LineIterator) :=
  let line_start := li.byte_iter.pos
  if li.byte_iter.buffer_len ≤ line_start then none
  else
    let (content, it') := readLineLoop (li.byte_iter.buffer_len + 1) li.byte_iter []
    some ((line_start, content), ⟨it'⟩)

/-- `LineIterator::prev` (`src/buffer.rs:813-853`): step before the cursor,
scan back to the previous line start, read that line, and reset the cursor
to its start. -/
def LineIterator.prev (li : LineIterator) : Option ((Nat × List Nat) × LineIterator) :=
  let current_pos := li.byte_iter.pos
  if current_pos = 0 then none
  else
    let it1 := li.byte_iter.seek (current_pos - 1)
    let it2 := scanBack it1.pos it1
    let line_start := it2.pos
    let (content, it3) := readLineLoop (it2.buffer_len + 1) it2 []
    some ((line_start, content), ⟨it3.seek line_start⟩)

/-- UTF-8 leading-byte test used by the character-boundary scans
(`src/buffer.rs:364` and `393`): `(byte & 0b1100_0000) != 0b1000_0000`. -/
def leadingByte (b : Nat) : Bool :=
  Nat.land b 192 ≠ 128

/-- The bounded forward scan of `Buffer::next_char_boundary`
(`src/buffer.rs:386-401`); `origPos` feeds the fallback `(pos+1).min(len)`. -/
def nextCBGo (content : List Nat) (origPos : Nat) : Nat → Nat → Nat
  | 0, _ => min (origPos + 1) content.length
  | fuel + 1, cur =>
    if content.length ≤ cur then content.length
    else
      match content[cur]? with
      | some b => if leadingByte b then cur else nextCBGo content origPos fuel (cur + 1)
      | none => nextCBGo content origPos fuel (cur + 1)

/-- `Buffer::next_char_boundary` (`src/buffer.rs:377-405`). -/
def nextCharBoundary (content : List Nat) (pos : Nat) : Nat :=
  if content.length ≤ pos then content.length
  else nextCBGo content pos 4 (pos + 1)

/-- The bounded backward scan of `Buffer::prev_char_boundary`
(`src/buffer.rs:357-370`); `origPos` feeds the fallback
`pos.saturating_sub(1)`. -/
def prevCBGo (content : List Nat) (origPos : Nat) : Nat → Nat → Nat
  | 0, _ => origPos - 1
  | fuel + 1, j =>
    if j = 0 then 0
    else
      match content[j]? with
      | some b => if leadingByte b then j else prevCBGo content origPos fuel (j - 1)
      | none => prevCBGo content origPos fuel (j - 1)

/-- `Buffer::prev_char_boundary` (`src/buffer.rs:349-374`). -/
def prevCharBoundary (content : List Nat) (pos : Nat) : Nat :=
  if pos = 0 then 0
  else prevCBGo content pos 4 (min (pos - 1) content.length)

/-- The word-byte classification of `src/buffer.rs:418-419` and `449-450`:
`(byte as char).is_alphanumeric() || byte as char == '_'`.  `byte as char`
interprets the byte as the Latin-1 code point U+0000..U+00FF, so this is
Rust `char::is_alphanumeric` restricted to Latin-1: ASCII digits and
letters, underscore, and the Latin-1 alphanumerics
U+00AA U+00B2 U+00B3 U+00B5 U+00B9 U+00BA U+00BC U+00BD U+00BE,
U+00C0-U+00D6, U+00D8-U+00F6, U+00F8-U+00FF. -/
def isWordByte (b : Nat) : Bool :=
  (48 ≤ b ∧ b ≤ 57) ∨ (65 ≤ b ∧ b ≤ 90) ∨ (97 ≤ b ∧ b ≤ 122) ∨ b = 95 ∨
    b = 170 ∨ b = 178 ∨ b = 179 ∨ b = 181 ∨ b = 185 ∨ b = 186 ∨
    b = 188 ∨ b = 189 ∨ b = 190 ∨
    (192 ≤ b ∧ b ≤ 214) ∨ (216 ≤ b ∧ b ≤ 246) ∨ (248 ≤ b ∧ b ≤ 255)

/-- The scan loop of `Buffer::next_word_boundary` (`src/buffer.rs:447-463`):
`cur` is the iterator position; on a word-to-non-word transition the
post-`next()` position `cur + 1` is returned. -/
def nextWBGo (content : List Nat) : Nat → Nat → Bool → Nat
  | 0, _, _ => content.length
  | fuel + 1, cur, found =>
    if content.length ≤ cur then content.length
    else
      match content[cur]? with
      | some b =>
        let w := isWordByte b
        if found && ! w then cur + 1
        else nextWBGo content fuel (cur + 1) (found || w)
      | none => content.length

/-- `Buffer::next_word_boundary` (`src/buffer.rs:438-466`). -/
def nextWordBoundary (content : List Nat) (pos : Nat) : Nat :=
  if content.length ≤ pos then content.length
  else nextWBGo content (content.length + 1 - pos) pos false

/-- The scan loop of `Buffer::prev_word_boundary` (`src/buffer.rs:416-432`):
`j` is the iterator position; on a word-to-non-word transition the position
`j + 1` is returned; the byte at position 0 is never examined. -/
def prevWBGo (content : List Nat) : Nat → Nat → Bool → Nat
  | 0, _, _ => 0
  | fuel + 1, j, found =>
    if j = 0 then 0
    else
      match content[j]? with
      | some b =>
        let w := isWordByte b
        if found && ! w then j + 1
        else prevWBGo content fuel (j - 1) (found || w)
      | none => prevWBGo content fuel (j - 1) found

/-- `Buffer::prev_word_boundary` (`src/buffer.rs:408-435`). -/
def prevWordBoundary (content : List Nat) (pos : Nat) : Nat :=
  if pos = 0 then 0
  else
    let j0 := min (pos - 1) content.length
    prevWBGo content (j0 + 1) j0 false

/-- A Unicode scalar value (what a Rust `char` holds): not a surrogate and
at most U+10FFFF. -/
def IsScalar (v : Nat) : Prop :=
  v < 55296 ∨ (57344 ≤ v ∧ v < 1114112)

instance (v : Nat) : Decidable (IsScalar v) := by
  unfold IsScalar; infer_instance

/-- UTF-8 encoding of one scalar value (the encoding used by Rust `str`,
which `Buffer::from_str` stores as raw bytes). -/
def utf8EncodeScalar (v : Nat) : List Nat :=
  if v < 128 then [v]
  else if v < 2048 then [192 + v / 64, 128 + v % 64]
  else if v < 65536 then [224 + v / 4096, 128 + v / 64 % 64, 128 + v % 64]
  else [240 + v / 262144, 128 + v / 4096 % 64, 128 + v / 64 % 64, 128 + v % 64]

/-- UTF-8 byte length of one scalar value (Rust `char::len_utf8`). -/
def lenUtf8 (v : Nat) : Nat :=
  if v < 128 then 1 else if v < 2048 then 2 else if v < 65536 then 3 else 4

/-- UTF-16 code-unit length of one scalar value (Rust `char::len_utf16`). -/
def lenUtf16 (v : Nat) : Nat :=
  if v < 65536 then 1 else 2

/-- UTF-8 encoding of a scalar-value list (the byte content of a valid
UTF-8 buffer whose characters are `vs`). -/
def encodeList (vs : List Nat) : List Nat :=
  (vs.map utf8EncodeScalar).flatten

/-- Total UTF-8 byte length of a scalar-value list. -/
def utf8Len (vs : List Nat) : Nat :=
  (encodeList vs).length

/-- Total UTF-16 code-unit length of a scalar-value list
(`str::encode_utf16().count()`). -/
def utf16Len (vs : List Nat) : Nat :=
  (vs.map lenUtf16).sum

/-- `p` is a UTF-8 character boundary of the text with scalar values `vs`
(Rust `str::is_char_boundary` on the encoded bytes). -/
def IsBoundary : List Nat → Nat → Prop
  | [], p => p = 0
  | v :: vs, p => p = 0 ∨ (lenUtf8 v ≤ p ∧ IsBoundary vs (p - lenUtf8 v))

instance : ∀ (vs : List Nat) (p : Nat), Decidable (IsBoundary vs p)
  | [], p => by unfold IsBoundary; infer_instance
  | v :: vs, p => by
    unfold IsBoundary
    have : Decidable (IsBoundary vs (p - lenUtf8 v)) := instDecidableIsBoundary vs _
    infer_instance

/-- Fuel-indexed UTF-8 decoding loop; each step consumes at least one byte,
so fuel = input length always suffices. -/
def utf8DecodeGo : Nat → List Nat → List Nat
  | 0, _ => []
  | _ + 1, [] => []
  | fuel + 1, b :: rest =>
    if b < 128 then b :: utf8DecodeGo fuel rest
    else if b < 194 then 65533 :: utf8DecodeGo fuel rest
    else if b < 224 then
      match rest with
      | b1 :: r =>
        if 128 ≤ b1 ∧ b1 < 192 then
          ((b - 192) * 64 + (b1 - 128)) :: utf8DecodeGo fuel r
        else 65533 :: utf8DecodeGo fuel (b1 :: r)
      | [] => [65533]
    else if b < 240 then
      match rest with
      | b1 :: b2 :: r =>
        if 128 ≤ b1 ∧ b1 < 192 ∧ 128 ≤ b2 ∧ b2 < 192 then
          let v := (b - 224) * 4096 + (b1 - 128) * 64 + (b2 - 128)
          if 2048 ≤ v ∧ IsScalar v then v :: utf8DecodeGo fuel r
          else 65533 :: utf8DecodeGo fuel (b1 :: b2 :: r)
        else 65533 :: utf8DecodeGo fuel (b1 :: b2 :: r)
      | _ => [65533]
    else if b < 245 then
      match rest with
      | b1 :: b2 :: b3 :: r =>
        if 128 ≤ b1 ∧ b1 < 192 ∧ 128 ≤ b2 ∧ b2 < 192 ∧ 128 ≤ b3 ∧ b3 < 192 then
          let v := (b - 240) * 262144 + (b1 - 128) * 4096 + (b2 - 128) * 64 +
            (b3 - 128)
          if 65536 ≤ v ∧ v < 1114112 then v :: utf8DecodeGo fuel r
          else 65533 :: utf8DecodeGo fuel (b1 :: b2 :: b3 :: r)
        else 65533 :: utf8DecodeGo fuel (b1 :: b2 :: b3 :: r)
      | _ => [65533]
    else 65533 :: utf8DecodeGo fuel rest

/-- UTF-8 decoding back to scalar values (the semantics of
`String::from_utf8_lossy` on the valid inputs the claims quantify over;
invalid bytes decode to U+FFFD). -/
def utf8Decode (l : List Nat) : List Nat :=
  utf8DecodeGo l.length l

/-- The line-finding loop of `Buffer::position_to_lsp_position`
(`src/buffer.rs:658-676`): walk the lines from the buffer start; in the line
containing `byte_pos`, count the UTF-16 units of the text before it. -/
def posToLspGo (byte_pos : Nat) : Nat → LineIterator → Nat → Nat × Nat
  | 0, _, line_number => (if 0 < line_number then line_number - 1 else 0, 0)
  | fuel + 1, li, line_number =>
    match li.next with
    | none => (if 0 < line_number then line_number - 1 else 0, 0)
    | some ((line_start, line_content), li') =>
      let line_end := line_start + line_content.length
      if line_start ≤ byte_pos ∧ byte_pos ≤ line_end then
        let byte_offset := byte_pos - line_start
        let text_before := line_content.take (min byte_offset line_content.length)
        (line_number, utf16Len (utf8Decode text_before))
      else posToLspGo byte_pos fuel li' (line_number + 1)

/-- `Buffer::position_to_lsp_position` (`src/buffer.rs:654-683`). -/
def positionToLspPosition (content : List Nat) (byte_pos : Nat) : Nat × Nat :=
  posToLspGo byte_pos (content.length + 1) (lineIterator content 0) 0

/-- The UTF-16-to-byte column loop of `Buffer::lsp_position_to_byte`
(`src/buffer.rs:729-739`): consume characters while the accumulated UTF-16
count is below the target. -/
def colLoop (utf16_offset : Nat) : List Nat → Nat → Nat → Nat
  | [], _, byte_offset => byte_offset
  | v :: rest, current_utf16, byte_offset =>
    if utf16_offset ≤ current_utf16 then byte_offset
    else colLoop utf16_offset rest (current_utf16 + lenUtf16 v) (byte_offset + lenUtf8 v)

/-- The line-skipping and column phase of `Buffer::lsp_position_to_byte`
(`src/buffer.rs:713-747`): skip `line` lines, then convert the UTF-16
column to a byte offset within the target line. -/
def lspToByteGo (content : List Nat) (utf16_offset : Nat) :
    Nat → LineIterator → Nat → Nat
  | 0, _, _ => content.length
  | fuel + 1, li, remaining =>
    match remaining with
    | r + 1 =>
      match li.next with
      | none => content.length
      | some (_, li') => lspToByteGo content utf16_offset fuel li' r
    | 0 =>
      match li.next with
      | none => content.length
      | some ((line_start, line_content), _) =>
        let byte_offset := colLoop utf16_offset (utf8Decode line_content) 0 0
        line_start + min byte_offset line_content.length

/-- `Buffer::lsp_position_to_byte` (`src/buffer.rs:713-747`). -/
def lspPositionToByte (content : List Nat) (line utf16_offset : Nat) : Nat :=
  lspToByteGo content utf16_offset (content.length + 1) (lineIterator content 0) line

/-- Modelled from the spec (section 3, Line Index Cache entry;
`line_cache.rs` is not among the provided sources): the cache entries as an
association list from byte offset to line number. -/
def LineCacheEntries := List (Nat × Nat)

/-- Modelled from the spec: exact lookup in `line_cache.entries`. -/
def cacheLookup (entries : List (Nat × Nat)) (off : Nat) : Option Nat :=
  (entries.find? fun e => e.1 = off).map (·.2)

/-- Modelled from the spec (section 4.5): "find the nearest cached
`(offset, line)` pair with `offset < byte_offset`". -/
def getNearestBefore (entries : List (Nat × Nat)) (off : Nat) : Option (Nat × Nat) :=
  entries.foldl
    (fun best e =>
      if e.1 < off then
        match best with
        | none => some e
        | some b => if b.1 < e.1 then some e else some b
      else best)
    none

/-- Modelled from the spec: map insertion into `line_cache.entries`
(overwrites an existing entry for the same offset). -/
def cacheInsert (entries : List (Nat × Nat)) (k v : Nat) : List (Nat × Nat) :=
  match cacheLookup entries k with
  | some _ => entries.map fun e => if e.1 = k then (k, v) else e
  | none => (k, v) :: entries

/-- Modelled from the spec: `entry(k).or_insert(v)` - insert only if absent. -/
def cacheOrInsert (entries : List (Nat × Nat)) (k v : Nat) : List (Nat × Nat) :=
  match cacheLookup entries k with
  | some _ => entries
  | none => (k, v) :: entries

/-- The forward scan loop of `Buffer::get_line_number`
(`src/buffer.rs:522-544`): walk lines from the nearest cached point, caching
each line start, until the target offset is reached or passed. -/
def getLineScan (byte_offset : Nat) :
    Nat → LineIterator → Nat → List (Nat × Nat) → Nat × List (Nat × Nat)
  | 0, _, current_line, cache => (current_line - 1, cache)
  | fuel + 1, li, current_line, cache =>
    match li.next with
    | none => (current_line - 1, cache)
    | some ((line_byte, _), li') =>
      if byte_offset < line_byte then (current_line - 1, cache)
      else
        let cache' := cacheInsert cache line_byte current_line
        if line_byte = byte_offset then (current_line, cache')
        else getLineScan byte_offset fuel li' (current_line + 1) cache'

/-- `Buffer::get_line_number` (`src/buffer.rs:472-545`), returning the line
number and the updated cache.  `ESTIMATION_THRESHOLD = 100_000`. -/
def getLineNumber (content : List Nat) (cache : List (Nat × Nat))
    (byte_offset : Nat) : Nat × List (Nat × Nat) :=
  match cacheLookup cache byte_offset with
  | some line => (line, cache)
  | none =>
    let sb_sl :=
      match getNearestBefore cache byte_offset with
      | some e => e
      | none => (0, 0)
    let start_byte := sb_sl.1
    let start_line := sb_sl.2
    let distance := byte_offset - start_byte
    if 100000 < distance then
      let estimated_line_number := start_line + distance / 80
      (estimated_line_number, cacheInsert cache byte_offset estimated_line_number)
    else
      let cache1 := cacheOrInsert cache start_byte start_line
      getLineScan byte_offset (content.length + 2) (lineIterator content start_byte)
        start_line cache1

/-! Claim C10: `find_next` with an empty pattern. -/

/-- C10: for every buffer content and every start position, `find_next`
with an empty pattern returns `None`: the guard at the top of
`Buffer::find_next` returns before any buffer read, so the result does not
depend on the content at all, and the buffer (a pure value here, taken by
shared reference in the source) is left unchanged. -/
theorem c10_find_next_empty_pattern (content : List Nat) (start_pos : Nat) :
    findNext content [] start_pos = none := by
  simp [findNext]

/-! Claim C9: empty edits and the modified flag. -/

/-- C9 counterexample: the claim states that every call to `insert` or
`delete` sets the modified flag to true, but `Buffer::insert` returns early
on empty text without touching the flag: inserting `""` into an unmodified
one-byte buffer leaves `modified = false`. -/
theorem c9_counterexample :
    ¬ ((Buffer.insert ⟨[97], false⟩ 0 []).modified = true) := by
  decide

/-- C9 (amended): `insert` with empty text and `delete` with an empty range
are complete no-ops (content and modified flag unchanged), and every
non-empty `insert` or `delete` sets the modified flag to true. -/
theorem c9_empty_edit_noop_nonempty_sets_modified (b : Buffer) (pos : Nat)
    (text : List Nat) (s e : Nat) :
    Buffer.insert b pos [] = b ∧
    (e ≤ s → Buffer.delete b s e = b) ∧
    (text ≠ [] → (Buffer.insert b pos text).modified = true) ∧
    (s < e → (Buffer.delete b s e).modified = true) := by
  refine ⟨by simp [Buffer.insert], fun h => by simp [Buffer.delete, h],
    fun h => by simp [Buffer.insert, h], fun h => ?_⟩
  have : ¬ e ≤ s := by omega
  simp [Buffer.delete, this]

/-- C9 witness: the amended theorem applied to the concrete buffer
`⟨"ab", unmodified⟩` with an empty and a non-empty insert and delete. -/
theorem c9_witness :
    Buffer.insert ⟨[97, 98], false⟩ 1 [] = ⟨[97, 98], false⟩ ∧
    Buffer.delete ⟨[97, 98], false⟩ 1 1 = ⟨[97, 98], false⟩ ∧
    (Buffer.insert ⟨[97, 98], false⟩ 1 [99]).modified = true ∧
    (Buffer.delete ⟨[97, 98], false⟩ 0 1).modified = true := by
  refine ⟨(c9_empty_edit_noop_nonempty_sets_modified ⟨[97, 98], false⟩ 1 [99] 1 1).1,
    (c9_empty_edit_noop_nonempty_sets_modified ⟨[97, 98], false⟩ 1 [99] 1 1).2.1 (by decide),
    (c9_empty_edit_noop_nonempty_sets_modified ⟨[97, 98], false⟩ 1 [99] 1 1).2.2.1 (by decide),
    (c9_empty_edit_noop_nonempty_sets_modified ⟨[97, 98], false⟩ 1 [99] 0 1).2.2.2 (by decide)⟩

/-! Claim C7: the estimation path of `get_line_number`. -/

/-- C7: when `byte_offset` has no exact cache entry and its distance from
the nearest cached entry strictly before it (defaulting to `(0, 0)`)
exceeds 100000 bytes, `get_line_number` returns `line + distance / 80` and
inserts `(byte_offset, estimate)` into the cache.  The right-hand side does
not mention the buffer content, which formalises "without scanning the
buffer".  The Line Index Cache itself is modelled from the spec
(section 4.5), `line_cache.rs` not being among the provided sources. -/
theorem c7_get_line_number_estimation (content : List Nat)
    (cache : List (Nat × Nat)) (byte_offset : Nat)
    (hmiss : cacheLookup cache byte_offset = none)
    (hdist : 100000 <
      byte_offset -
        (match getNearestBefore cache byte_offset with
         | some e => e
         | none => (0, 0)).1) :
    getLineNumber content cache byte_offset =
      ((match getNearestBefore cache byte_offset with
        | some e => e
        | none => (0, 0)).2 +
        (byte_offset -
          (match getNearestBefore cache byte_offset with
           | some e => e
           | none => (0, 0)).1) / 80,
       cacheInsert cache byte_offset
         ((match getNearestBefore cache byte_offset with
           | some e => e
           | none => (0, 0)).2 +
          (byte_offset -
            (match getNearestBefore cache byte_offset with
             | some e => e
             | none => (0, 0)).1) / 80)) := by
  unfold getLineNumber
  rw [hmiss]
  simp only [hdist, if_pos]

/-- C7 witness: the estimation theorem applied to the cache `[(5, 2)]` and
offset 200000: distance 199995 exceeds the threshold, the estimate is
`2 + 199995 / 80 = 2501`, and the pair is cached. -/
theorem c7_witness :
    getLineNumber [97] [(5, 2)] 200000 = (2501, [(200000, 2501), (5, 2)]) :=
  (c7_get_line_number_estimation [97] [(5, 2)] 200000 (by decide) (by decide)).trans
    (by decide)

/-! Generic helper lemmas: first-hit characterisation of `List.find?` over
an index range, and facts about contiguous slices. -/

theorem range'_find?_eq_some (p : Nat → Bool) :
    ∀ (n s i : Nat), (List.range' s n).find? p = some i ↔
      (s ≤ i ∧ i < s + n ∧ p i = true ∧ ∀ j, s ≤ j → j < i → p j = false) := by
  intro n
  induction n with
  | zero => intro s i; simp [List.range']; omega
  | succ n ih =>
    intro s i
    have hr : List.range' s (n + 1) = s :: List.range' (s + 1) n := by
      simp [List.range']
    rw [hr, List.find?_cons]
    cases h : p s with
    | true =>
      simp only []
      constructor
      · rintro ⟨rfl⟩
        exact ⟨le_rfl, by omega, h, fun j h1 h2 => absurd h1 (by omega)⟩
      · rintro ⟨h1, h2, h3, h4⟩
        by_cases hi : i = s
        · simp [hi]
        · have := h4 s le_rfl (by omega)
          rw [h] at this; cases this
    | false =>
      simp only []
      rw [ih (s + 1) i]
      constructor
      · rintro ⟨h1, h2, h3, h4⟩
        refine ⟨by omega, by omega, h3, fun j hj1 hj2 => ?_⟩
        by_cases hj : j = s
        · rw [hj]; exact h
        · exact h4 j (by omega) hj2
      · rintro ⟨h1, h2, h3, h4⟩
        have his : i ≠ s := fun he => by rw [he] at h3; rw [h] at h3; cases h3
        exact ⟨by omega, by omega, h3, fun j hj1 hj2 => h4 j (by omega) hj2⟩

theorem range'_find?_eq_none (p : Nat → Bool) :
    ∀ (n s : Nat), (List.range' s n).find? p = none ↔
      ∀ j, s ≤ j → j < s + n → p j = false := by
  intro n
  induction n with
  | zero => intro s; simp [List.range']; omega
  | succ n ih =>
    intro s
    have hr : List.range' s (n + 1) = s :: List.range' (s + 1) n := by
      simp [List.range']
    rw [hr, List.find?_cons]
    cases h : p s with
    | true =>
      simp only []
      constructor
      · intro hc; cases hc
      · intro hall
        have := hall s le_rfl (by omega)
        rw [h] at this; cases this
    | false =>
      simp only []
      rw [ih (s + 1)]
      constructor
      · intro hall j hj1 hj2
        by_cases hj : j = s
        · rw [hj]; exact h
        · exact hall j (by omega) (by omega)
      · intro hall j hj1 hj2
        exact hall j (by omega) (by omega)

theorem sliceL_length (l : List Nat) (a b : Nat) (_h1 : a ≤ b) (h2 : b ≤ l.length) :
    (sliceL l a b).length = b - a := by
  simp [sliceL]; omega

theorem sliceL_getElem? (l : List Nat) (a b i : Nat) :
    (sliceL l a b)[i]? = if i < b - a then l[a + i]? else none := by
  unfold sliceL
  rw [List.getElem?_take]
  by_cases h : i < b - a
  · simp [h, List.getElem?_drop]
  · simp [h]

theorem sliceL_snoc (l : List Nat) (a b : Nat) (x : Nat) (hab : a ≤ b)
    (hx : l[b]? = some x) : sliceL l a (b + 1) = sliceL l a b ++ [x] := by
  unfold sliceL
  have : b + 1 - a = (b - a) + 1 := by omega
  rw [this, List.take_succ, List.getElem?_drop]
  have : a + (b - a) = b := by omega
  rw [this, hx]
  rfl

theorem sliceL_sliceL (l : List Nat) (α β i j : Nat) (h : α + j ≤ β) :
    sliceL (sliceL l α β) i j = sliceL l (α + i) (α + j) := by
  unfold sliceL
  rw [List.drop_take, List.drop_drop]
  rw [List.take_take]
  have h2 : min (j - i) (β - α - i) = j - i := by omega
  have h3 : α + j - (i + α) = j - i := by omega
  rw [Nat.add_comm α i, h2, h3]

theorem sliceL_drop (l : List Nat) (a b k : Nat) :
    (sliceL l a b).drop k = sliceL l (a + k) b := by
  unfold sliceL
  rw [List.drop_take, List.drop_drop]
  have h2 : b - a - k = b - (k + a) := by omega
  rw [Nat.add_comm a k, h2]

theorem sliceL_all (l : List Nat) : sliceL l 0 l.length = l := by
  simp [sliceL]

theorem sliceL_empty (l : List Nat) (a b : Nat) (h : b ≤ a) : sliceL l a b = [] := by
  unfold sliceL
  have : b - a = 0 := by omega
  rw [this, List.take_zero]

/-! Characterisation of the naive pattern scan and of the
specification-side exhaustive scan. -/

theorem findPattern_eq_some_iff (hay pat : List Nat) (i : Nat) (hpat : pat ≠ []) :
    findPattern hay pat = some i ↔
      (i + pat.length ≤ hay.length ∧ sliceL hay i (i + pat.length) = pat ∧
        ∀ j, j < i → sliceL hay j (j + pat.length) ≠ pat) := by
  unfold findPattern
  by_cases hlen : hay.length < pat.length
  · simp only [hpat, hlen, or_true, if_pos]
    constructor
    · intro hc; cases hc
    · rintro ⟨h1, _, _⟩
      have : 1 ≤ pat.length := List.length_pos.mpr hpat
      omega
  · simp only [hpat, hlen, or_false, if_neg, not_false_iff]
    rw [List.range_eq_range' _, range'_find?_eq_some]
    constructor
    · rintro ⟨_, h2, h3, h4⟩
      refine ⟨by omega, of_decide_eq_true h3, fun j hj => ?_⟩
      have := h4 j (by omega) hj
      exact of_decide_eq_false this
    · rintro ⟨h1, h2, h3⟩
      refine ⟨by omega, by omega, decide_eq_true h2, fun j _ hj => ?_⟩
      exact decide_eq_false (h3 j hj)

theorem findPattern_eq_none_iff (hay pat : List Nat) (hpat : pat ≠ []) :
    findPattern hay pat = none ↔
      ∀ j, j + pat.length ≤ hay.length → sliceL hay j (j + pat.length) ≠ pat := by
  unfold findPattern
  by_cases hlen : hay.length < pat.length
  · simp only [hpat, hlen, or_true, if_pos]
    constructor
    · intro _ j hj
      have : 1 ≤ pat.length := List.length_pos.mpr hpat
      omega
    · intro _; trivial
  · simp only [hpat, hlen, or_false, if_neg, not_false_iff]
    rw [List.range_eq_range' _, range'_find?_eq_none]
    constructor
    · intro hall j hj
      exact of_decide_eq_false (hall j (by omega) (by omega))
    · intro hall j _ hj
      exact decide_eq_false (hall j (by omega))

theorem firstOccIn_eq_some_iff (content pat : List Nat) (a b i : Nat) :
    firstOccIn content pat a b = some i ↔
      (a ≤ i ∧ i + pat.length ≤ b ∧ occursAt content pat i ∧
        ∀ j, j < i → ¬ (a ≤ j ∧ j + pat.length ≤ b ∧ occursAt content pat j)) := by
  unfold firstOccIn
  rw [List.range_eq_range' _, range'_find?_eq_some]
  constructor
  · rintro ⟨_, _, h3, h4⟩
    obtain ⟨ha, hb, hocc⟩ := of_decide_eq_true h3
    refine ⟨ha, hb, hocc, fun j hj hq => ?_⟩
    exact absurd hq (of_decide_eq_false (h4 j (by omega) hj))
  · rintro ⟨h1, h2, h3, h4⟩
    have hib : i ≤ content.length := by
      have := h3.1; omega
    refine ⟨by omega, by omega, decide_eq_true ⟨h1, h2, h3⟩, fun j _ hj => ?_⟩
    exact decide_eq_false (h4 j hj)

theorem firstOccIn_eq_none_iff (content pat : List Nat) (a b : Nat) :
    firstOccIn content pat a b = none ↔
      ∀ j, ¬ (a ≤ j ∧ j + pat.length ≤ b ∧ occursAt content pat j) := by
  unfold firstOccIn
  rw [List.range_eq_range' _, range'_find?_eq_none]
  constructor
  · intro hall j hq
    have hjb : j ≤ content.length := by
      have := hq.2.2.1; omega
    exact absurd hq (of_decide_eq_false (hall j (by omega) (by omega)))
  · intro hall j _ _
    exact decide_eq_false (hall j)

/-! Characterisation of the chunk byte-pulling loop. -/

theorem fillLoop_spec (content : List Nat) (endp cs ov : Nat) (fc : Bool)
    (target : Nat) :
    ∀ (fuel bsp crp : Nat),
      bsp ≤ crp → crp ≤ min endp content.length →
      target + 1 ≤ fuel + (crp - bsp) →
      fillLoop target fuel
        ⟨⟨content, crp⟩, sliceL content bsp crp, bsp, crp, endp, cs, ov, fc⟩ =
        ⟨⟨content, max crp (min (bsp + target) (min endp content.length))⟩,
          sliceL content bsp
            (max crp (min (bsp + target) (min endp content.length))),
          bsp,
          max crp (min (bsp + target) (min endp content.length)),
          endp, cs, ov, fc⟩ := by
  intro fuel
  induction fuel with
  | zero =>
    intro bsp crp h1 h2 h3
    have hlen : (sliceL content bsp crp).length = crp - bsp :=
      sliceL_length content bsp crp h1 (by omega)
    have heq : max crp (min (bsp + target) (min endp content.length)) = crp := by
      omega
    rw [heq, fillLoop]
  | succ fuel ih =>
    intro bsp crp h1 h2 h3
    have hlen : (sliceL content bsp crp).length = crp - bsp :=
      sliceL_length content bsp crp h1 (by omega)
    rw [fillLoop]
    by_cases hc : (sliceL content bsp crp).length < target ∧ crp < endp
    · rw [if_pos hc]
      by_cases hl : crp < content.length
      · have hget : content[crp]? = some content[crp] := List.getElem?_eq_getElem hl
        simp only [ByteIterator.next, hget]
        have hsnoc : sliceL content bsp crp ++ [content[crp]] =
            sliceL content bsp (crp + 1) :=
          (sliceL_snoc content bsp crp content[crp] h1 hget).symm
        rw [hsnoc]
        have hstep := ih bsp (crp + 1) (by omega) (by omega) (by omega)
        rw [hstep]
        have heq : max (crp + 1) (min (bsp + target) (min endp content.length)) =
            max crp (min (bsp + target) (min endp content.length)) := by omega
        rw [heq]
      · have hget : content[crp]? = none := by
          rw [List.getElem?_eq_none]; omega
        simp only [ByteIterator.next, hget]
        have heq : max crp (min (bsp + target) (min endp content.length)) = crp := by
          omega
        rw [heq]
    · rw [if_neg hc]
      have heq : max crp (min (bsp + target) (min endp content.length)) = crp := by
        omega
      rw [heq]

/-! Characterisation of single chunk emissions. -/

theorem fillNextChunk_first (content : List Nat) (start endp cs ov : Nat)
    (h1 : start < min endp content.length) (h2 : 1 ≤ cs) :
    fillNextChunk ⟨⟨content, start⟩, [], start, start, endp, cs, ov, true⟩ =
      (true, ⟨⟨content, min (start + cs) (min endp content.length)⟩,
        sliceL content start (min (start + cs) (min endp content.length)),
        start, min (start + cs) (min endp content.length),
        endp, cs, ov, false⟩) := by
  have hempty : ([] : List Nat) = sliceL content start start :=
    (sliceL_empty content start start le_rfl).symm
  have hfill := fillLoop_spec content endp cs ov false cs (cs + 1) start start
    le_rfl (by omega) (by omega)
  have hc2 : max start (min (start + cs) (min endp content.length)) =
      min (start + cs) (min endp content.length) := by omega
  rw [hc2] at hfill
  have hlen : (sliceL content start (min (start + cs) (min endp content.length))).length
      = min (start + cs) (min endp content.length) - start :=
    sliceL_length content _ _ (by omega) (by omega)
  have hne : sliceL content start (min (start + cs) (min endp content.length)) ≠ [] := by
    intro hnil
    rw [hnil] at hlen
    simp at hlen
    omega
  have hne2 : sliceL content start (min (start + cs) (min endp content.length)) ≠
      sliceL content start start := by
    rw [← hempty]
    exact hne
  unfold fillNextChunk
  simp only [if_true]
  rw [hempty, hfill]
  have hd : decide (¬ sliceL content start
      (min (start + cs) (min endp content.length)) = sliceL content start start) =
      true := decide_eq_true hne2
  rw [hd]

theorem chunksNext_first_some (content : List Nat) (start endp cs ov : Nat)
    (h1 : start < min endp content.length) (h2 : 1 ≤ cs) :
    chunksNext (OverlappingChunks.new (iterAt content start) start endp cs ov) =
      some (⟨sliceL content start (min (start + cs) (min endp content.length)),
          start, 0⟩,
        ⟨⟨content, min (start + cs) (min endp content.length)⟩,
          sliceL content start (min (start + cs) (min endp content.length)),
          start, min (start + cs) (min endp content.length),
          endp, cs, ov, false⟩) := by
  have hiter : iterAt content start = ⟨content, start⟩ := by
    unfold iterAt
    congr 1
    omega
  unfold chunksNext OverlappingChunks.new
  rw [hiter, fillNextChunk_first content start endp cs ov h1 h2]
  simp

theorem chunksNext_first_exhausted (content : List Nat) (start endp cs ov : Nat)
    (hge : content.length ≤ start) :
    chunksNext (OverlappingChunks.new (iterAt content start) start endp cs ov) =
      none := by
  have hiter : iterAt content start = ⟨content, content.length⟩ := by
    unfold iterAt
    congr 1
    omega
  unfold chunksNext OverlappingChunks.new
  rw [hiter]
  unfold fillNextChunk
  simp only [if_true]
  have hget : content[content.length]? = none := by
    rw [List.getElem?_eq_none]
    exact le_rfl
  have hfl : ∀ fuel, fillLoop cs fuel
      ⟨⟨content, content.length⟩, [], start, start, endp, cs, ov, false⟩ =
      ⟨⟨content, content.length⟩, [], start, start, endp, cs, ov, false⟩ := by
    intro fuel
    cases fuel with
    | zero => rw [fillLoop]
    | succ fuel =>
      rw [fillLoop]
      by_cases hc : ([] : List Nat).length < cs ∧ start < endp
      · rw [if_pos hc]
        simp only [ByteIterator.next, hget]
      · rw [if_neg hc]
  rw [hfl]
  simp

theorem fillNextChunk_step_none (content : List Nat) (endp cs ov bsp crp : Nat)
    (h1 : bsp ≤ crp) (h2 : crp ≤ min endp content.length)
    (hstop : min endp content.length ≤ crp) :
    (fillNextChunk
      ⟨⟨content, crp⟩, sliceL content bsp crp, bsp, crp, endp, cs, ov, false⟩).1 =
      false := by
  unfold fillNextChunk
  simp only [if_false, Bool.false_eq_true]
  by_cases hend : endp ≤ crp
  · rw [if_pos hend]
  · rw [if_neg hend]
    have hcl : crp = content.length := by omega
    have hlen : (sliceL content bsp crp).length = crp - bsp :=
      sliceL_length content bsp crp h1 (by omega)
    by_cases hd : ov < (sliceL content bsp crp).length
    · rw [if_pos hd]
      simp only [hlen]
      rw [sliceL_drop]
      have hfill := fillLoop_spec content endp cs ov false (ov + cs) (ov + cs + 1)
        (bsp + (crp - bsp - ov)) crp (by omega) (by omega) ?side
      case side =>
        have hlen2 : (sliceL content (bsp + (crp - bsp - ov)) crp).length =
            crp - (bsp + (crp - bsp - ov)) :=
          sliceL_length content _ crp (by omega) (by omega)
        omega
      rw [hfill]
      have hc2 : max crp (min (bsp + (crp - bsp - ov) + (ov + cs))
          (min endp content.length)) = crp := by omega
      rw [hc2]
      simp
    · rw [if_neg hd]
      have hfill := fillLoop_spec content endp cs ov false (ov + cs) (ov + cs + 1)
        bsp crp h1 h2 (by omega)
      rw [hfill]
      have hc2 : max crp (min (bsp + (ov + cs)) (min endp content.length)) = crp := by
        omega
      rw [hc2]
      simp

theorem chunksNext_step_none (content : List Nat) (endp cs ov bsp crp : Nat)
    (h1 : bsp ≤ crp) (h2 : crp ≤ min endp content.length)
    (hstop : min endp content.length ≤ crp) :
    chunksNext
      ⟨⟨content, crp⟩, sliceL content bsp crp, bsp, crp, endp, cs, ov, false⟩ =
      none := by
  have h := fillNextChunk_step_none content endp cs ov bsp crp h1 h2 hstop
  unfold chunksNext
  rcases hfc : fillNextChunk
      ⟨⟨content, crp⟩, sliceL content bsp crp, bsp, crp, endp, cs, ov, false⟩ with
    ⟨b, st2⟩
  rw [hfc] at h
  simp only [] at h
  subst h
  simp only [hfc]

theorem fillNextChunk_step_some (content : List Nat) (endp cs ov bsp crp : Nat)
    (h1 : bsp < crp) (h2 : crp < min endp content.length) (hcs : 1 ≤ cs) :
    fillNextChunk
      ⟨⟨content, crp⟩, sliceL content bsp crp, bsp, crp, endp, cs, ov, false⟩ =
      (true,
        ⟨⟨content, min (max bsp (crp - ov) + (ov + cs)) (min endp content.length)⟩,
          sliceL content (max bsp (crp - ov))
            (min (max bsp (crp - ov) + (ov + cs)) (min endp content.length)),
          max bsp (crp - ov),
          min (max bsp (crp - ov) + (ov + cs)) (min endp content.length),
          endp, cs, ov, false⟩) := by
  have hend : ¬ endp ≤ crp := by omega
  have hlen : (sliceL content bsp crp).length = crp - bsp :=
    sliceL_length content bsp crp (by omega) (by omega)
  unfold fillNextChunk
  simp only [if_false, Bool.false_eq_true, hend, hlen]
  by_cases hd : ov < crp - bsp
  · simp only [if_pos hd, sliceL_drop]
    have hb1 : bsp + (crp - bsp - ov) = max bsp (crp - ov) := by omega
    rw [hb1]
    have hfill := fillLoop_spec content endp cs ov false (ov + cs) (ov + cs + 1)
      (max bsp (crp - ov)) crp (by omega) h2.le ?side
    case side =>
      have hlen2 : (sliceL content (max bsp (crp - ov)) crp).length =
          crp - max bsp (crp - ov) :=
        sliceL_length content _ crp (by omega) (by omega)
      omega
    rw [hfill]
    have hc2 : max crp (min (max bsp (crp - ov) + (ov + cs))
        (min endp content.length)) =
        min (max bsp (crp - ov) + (ov + cs)) (min endp content.length) := by omega
    rw [hc2]
    have hlen3 : (sliceL content (max bsp (crp - ov)) crp).length =
        crp - max bsp (crp - ov) :=
      sliceL_length content _ crp (by omega) (by omega)
    have hlen4 : (sliceL content (max bsp (crp - ov))
        (min (max bsp (crp - ov) + (ov + cs)) (min endp content.length))).length =
        min (max bsp (crp - ov) + (ov + cs)) (min endp content.length) -
          max bsp (crp - ov) :=
      sliceL_length content _ _ (by omega) (by omega)
    have hlt : (sliceL content (max bsp (crp - ov)) crp).length <
        (sliceL content (max bsp (crp - ov))
          (min (max bsp (crp - ov) + (ov + cs)) (min endp content.length))).length := by
      omega
    have hdec : decide ((sliceL content (max bsp (crp - ov)) crp).length <
        (sliceL content (max bsp (crp - ov))
          (min (max bsp (crp - ov) + (ov + cs))
            (min endp content.length))).length) = true := decide_eq_true hlt
    rw [hdec]
  · simp only [if_neg hd]
    have hb1 : max bsp (crp - ov) = bsp := by omega
    rw [hb1]
    have hfill := fillLoop_spec content endp cs ov false (ov + cs) (ov + cs + 1)
      bsp crp (by omega) h2.le (by omega)
    rw [hfill]
    have hc2 : max crp (min (bsp + (ov + cs)) (min endp content.length)) =
        min (bsp + (ov + cs)) (min endp content.length) := by omega
    rw [hc2]
    have hlen4 : (sliceL content bsp
        (min (bsp + (ov + cs)) (min endp content.length))).length =
        min (bsp + (ov + cs)) (min endp content.length) - bsp :=
      sliceL_length content _ _ (by omega) (by omega)
    have hlt : (sliceL content bsp crp).length <
        (sliceL content bsp
          (min (bsp + (ov + cs)) (min endp content.length))).length := by
      omega
    have hdec : decide ((sliceL content bsp crp).length <
        (sliceL content bsp
          (min (bsp + (ov + cs))
            (min endp content.length))).length) = true := decide_eq_true hlt
    rw [hdec]

theorem chunksNext_step_some (content : List Nat) (endp cs ov bsp crp : Nat)
    (h1 : bsp < crp) (h2 : crp < min endp content.length) (hcs : 1 ≤ cs) :
    chunksNext
      ⟨⟨content, crp⟩, sliceL content bsp crp, bsp, crp, endp, cs, ov, false⟩ =
      some (⟨sliceL content (max bsp (crp - ov))
            (min (max bsp (crp - ov) + (ov + cs)) (min endp content.length)),
          max bsp (crp - ov),
          min ov (min (max bsp (crp - ov) + (ov + cs)) (min endp content.length) -
            max bsp (crp - ov))⟩,
        ⟨⟨content, min (max bsp (crp - ov) + (ov + cs)) (min endp content.length)⟩,
          sliceL content (max bsp (crp - ov))
            (min (max bsp (crp - ov) + (ov + cs)) (min endp content.length)),
          max bsp (crp - ov),
          min (max bsp (crp - ov) + (ov + cs)) (min endp content.length),
          endp, cs, ov, false⟩) := by
  have hne : ¬ (bsp = crp) := by omega
  unfold chunksNext
  rw [fillNextChunk_step_some content endp cs ov bsp crp h1 h2 hcs]
  simp only [hne, if_false]
  have hlenb : (sliceL content (max bsp (crp - ov))
      (min (max bsp (crp - ov) + (ov + cs)) (min endp content.length))).length =
      min (max bsp (crp - ov) + (ov + cs)) (min endp content.length) -
        max bsp (crp - ov) :=
    sliceL_length content _ _ (by omega) (by omega)
  rw [hlenb]

/-! Claim C2: valid-zone coverage of the chunk window stream. -/

/-- Specification-side predicate: position `p` lies in the valid zone of
window `c` (from `valid_start` to the window's end, in absolute offsets). -/
def coversPos (c : ChunkInfo) (p : Nat) : Prop :=
  c.absolute_pos + c.valid_start ≤ p ∧ p < c.absolute_pos + c.buffer.length

instance (c : ChunkInfo) (p : Nat) : Decidable (coversPos c p) := by
  unfold coversPos; infer_instance

/-- Specification-side count: in how many windows' valid zones `p` lies. -/
def countCovering (l : List ChunkInfo) (p : Nat) : Nat :=
  l.countP fun c => decide (coversPos c p)

theorem chunksFrom_count (content : List Nat) (cs ov : Nat)
    (hov : 1 ≤ ov) (hoc : ov ≤ cs) :
    ∀ (fuel bsp crp : Nat),
      bsp < crp → crp ≤ content.length →
      (crp < content.length → ov ≤ crp - bsp) →
      content.length + 1 ≤ fuel + crp →
      ∀ p,
        countCovering
          (chunksFrom fuel
            ⟨⟨content, crp⟩, sliceL content bsp crp, bsp, crp,
              content.length, cs, ov, false⟩) p =
          if crp ≤ p ∧ p < content.length then 1 else 0 := by
  intro fuel
  induction fuel with
  | zero =>
    intro bsp crp h1 h2 h3 h4
    omega
  | succ fuel ih =>
    intro bsp crp h1 h2 h3 h4 p
    by_cases hcr : crp < content.length
    · have hstep := chunksNext_step_some content content.length cs ov bsp crp h1
        (by omega) (by omega)
      have hb1 : max bsp (crp - ov) = crp - ov := by
        have := h3 hcr
        omega
      rw [hb1] at hstep
      have hc2 : min (crp - ov + (ov + cs))
          (min content.length content.length) =
          min (crp + cs) content.length := by omega
      rw [hc2] at hstep
      have hcrp2 : crp + 1 ≤ min (crp + cs) content.length := by omega
      have hvs : min ov (min (crp + cs) content.length - (crp - ov)) = ov := by
        omega
      rw [hvs] at hstep
      rw [chunksFrom, hstep]
      have hlenb : (sliceL content (crp - ov)
          (min (crp + cs) content.length)).length =
          min (crp + cs) content.length - (crp - ov) :=
        sliceL_length content _ _ (by omega) (by omega)
      have hrec := ih (crp - ov) (min (crp + cs) content.length)
        (by omega) (by omega) (by omega) (by omega) p
      unfold countCovering at hrec ⊢
      rw [List.countP_cons, hrec]
      have hcov : (decide (coversPos
          ⟨sliceL content (crp - ov) (min (crp + cs) content.length),
            crp - ov, ov⟩ p)) = decide (crp ≤ p ∧ p < min (crp + cs) content.length) := by
        unfold coversPos
        simp only [hlenb]
        by_cases hc : crp ≤ p ∧ p < min (crp + cs) content.length
        · rw [decide_eq_true (by omega : crp - ov + ov ≤ p ∧
            p < crp - ov + (min (crp + cs) content.length - (crp - ov))),
            decide_eq_true hc]
        · rw [decide_eq_false (by omega : ¬ (crp - ov + ov ≤ p ∧
            p < crp - ov + (min (crp + cs) content.length - (crp - ov)))),
            decide_eq_false hc]
      rw [hcov]
      by_cases hc : crp ≤ p ∧ p < min (crp + cs) content.length
      · rw [decide_eq_true hc]
        have hL : crp ≤ p ∧ p < content.length := by omega
        rw [if_pos hL, if_neg (by omega : ¬ (min (crp + cs) content.length ≤ p ∧
          p < content.length))]
        simp
      · rw [decide_eq_false hc]
        by_cases hc2' : min (crp + cs) content.length ≤ p ∧ p < content.length
        · rw [if_pos hc2', if_pos (by omega : crp ≤ p ∧ p < content.length)]
          simp
        · rw [if_neg hc2', if_neg (by omega : ¬ (crp ≤ p ∧ p < content.length))]
          simp
    · have hstop := chunksNext_step_none content content.length cs ov bsp crp
        (by omega) (by omega) (by omega)
      rw [chunksFrom, hstop]
      unfold countCovering
      rw [if_neg (by omega : ¬ (crp ≤ p ∧ p < content.length))]
      rfl

/-- C2 counterexample: the claim quantifies over every `chunk_size` and
every `overlap ≥ 1`, but with content length 11, `chunk_size = 5` and
`overlap = 6` the byte at position 5 lies in no window's valid zone: the
second window keeps the whole first window as a prefix (nothing is drained
because the buffer is not longer than the overlap) yet still sets
`valid_start = overlap = 6 > 5`. -/
theorem c2_counterexample :
    1 ≤ 6 ∧ 5 < (List.replicate 11 0).length ∧
      countCovering (chunkWindows (List.replicate 11 0) 5 6) 5 = 0 := by
  decide

/-- C2 (amended): for every content length `L`, every `chunk_size ≥ 1` and
every `overlap` with `1 ≤ overlap ≤ chunk_size`, the valid zones of the
chunk window stream over `[0, L)` cover every position of `[0, L)` exactly
once. -/
theorem c2_chunk_windows_cover_exactly_once (content : List Nat)
    (cs ov p : Nat) (hov : 1 ≤ ov) (hoc : ov ≤ cs) (hp : p < content.length) :
    countCovering (chunkWindows content cs ov) p = 1 := by
  unfold chunkWindows
  have hL : 1 ≤ content.length := by omega
  have hfirst := chunksNext_first_some content 0 content.length cs ov
    (by omega) (by omega)
  have hc1 : min (0 + cs) (min content.length content.length) =
      min cs content.length := by omega
  rw [hc1] at hfirst
  rw [show content.length + 2 = (content.length + 1) + 1 by omega]
  rw [chunksFrom, hfirst]
  have hlenb : (sliceL content 0 (min cs content.length)).length =
      min cs content.length - 0 :=
    sliceL_length content _ _ (by omega) (by omega)
  have hrec := chunksFrom_count content cs ov hov hoc (content.length + 1) 0
    (min cs content.length) (by omega) (by omega) (by omega) (by omega) p
  unfold countCovering at hrec ⊢
  rw [List.countP_cons, hrec]
  have hcov : (decide (coversPos
      ⟨sliceL content 0 (min cs content.length), 0, 0⟩ p)) =
      decide (p < min cs content.length) := by
    unfold coversPos
    simp only [hlenb]
    by_cases hc : p < min cs content.length
    · rw [decide_eq_true (by omega : 0 + 0 ≤ p ∧
        p < 0 + (min cs content.length - 0)), decide_eq_true hc]
    · rw [decide_eq_false (by omega : ¬ (0 + 0 ≤ p ∧
        p < 0 + (min cs content.length - 0))), decide_eq_false hc]
  rw [hcov]
  by_cases hc : p < min cs content.length
  · rw [decide_eq_true hc,
      if_neg (by omega : ¬ (min cs content.length ≤ p ∧ p < content.length))]
    simp
  · rw [decide_eq_false hc,
      if_pos (by omega : min cs content.length ≤ p ∧ p < content.length)]
    simp

/-- C2 witness: the amended coverage theorem applied to content length 7,
`chunk_size = 3`, `overlap = 2`, position 4. -/
theorem c2_witness :
    countCovering (chunkWindows (List.replicate 7 0) 3 2) 4 = 1 :=
  c2_chunk_windows_cover_exactly_once (List.replicate 7 0) 3 2 4
    (by decide) (by decide) (by decide)

/-! Claims C1 and C3: streaming search equals the exhaustive scan. -/

theorem streamChunk_found (content pat : List Nat) (start endp bsp1 crp2 off : Nat)
    (hpat : pat ≠ [])
    (hs : start ≤ bsp1) (hE : crp2 ≤ min endp content.length)
    (hQ : ∀ o, start ≤ o → o + pat.length ≤ endp → occursAt content pat o →
      bsp1 ≤ o)
    (hc : bsp1 ≤ crp2)
    (hfp : findPattern (sliceL content bsp1 crp2) pat = some off) :
    firstOccIn content pat start endp = some (bsp1 + off) := by
  have hbl : (sliceL content bsp1 crp2).length = crp2 - bsp1 :=
    sliceL_length content bsp1 crp2 hc (by omega)
  obtain ⟨hfp1, hfp2, hfp3⟩ := (findPattern_eq_some_iff _ pat off hpat).mp hfp
  rw [hbl] at hfp1
  have hslice : sliceL (sliceL content bsp1 crp2) off (off + pat.length) =
      sliceL content (bsp1 + off) (bsp1 + off + pat.length) := by
    have := sliceL_sliceL content bsp1 crp2 off (off + pat.length) (by omega)
    rw [this]
    congr 1
    omega
  rw [hslice] at hfp2
  have hocc : occursAt content pat (bsp1 + off) := by
    refine ⟨by omega, ?_⟩
    rw [show bsp1 + off + pat.length = bsp1 + off + pat.length from rfl]
    exact hfp2
  rw [firstOccIn_eq_some_iff]
  refine ⟨by omega, by omega, hocc, fun j hj hQj => ?_⟩
  obtain ⟨hQj1, hQj2, hQj3⟩ := hQj
  have hbj : bsp1 ≤ j := hQ j hQj1 hQj2 hQj3
  have hij : j - bsp1 < off := by omega
  have hjl : j - bsp1 + pat.length ≤ crp2 - bsp1 := by
    have := hQj3.1
    omega
  have hslj : sliceL (sliceL content bsp1 crp2) (j - bsp1)
      (j - bsp1 + pat.length) = sliceL content j (j + pat.length) := by
    have := sliceL_sliceL content bsp1 crp2 (j - bsp1) (j - bsp1 + pat.length)
      (by omega)
    rw [this]
    congr 1
    · omega
    · omega
  have := hfp3 (j - bsp1) hij
  rw [hslj] at this
  exact this hQj3.2

theorem streamChunk_notfound (content pat : List Nat) (start endp bsp1 crp2 : Nat)
    (hpat : pat ≠ [])
    (hE : crp2 ≤ min endp content.length)
    (hQ : ∀ o, start ≤ o → o + pat.length ≤ endp → occursAt content pat o →
      bsp1 ≤ o)
    (hfp : findPattern (sliceL content bsp1 crp2) pat = none) :
    ∀ o, start ≤ o → o + pat.length ≤ endp → occursAt content pat o →
      crp2 < o + pat.length := by
  intro o ho1 ho2 ho3
  by_contra hle
  have hoc : o + pat.length ≤ crp2 := by omega
  have hbo : bsp1 ≤ o := hQ o ho1 ho2 ho3
  have hc : bsp1 ≤ crp2 := by omega
  have hbl : (sliceL content bsp1 crp2).length = crp2 - bsp1 :=
    sliceL_length content bsp1 crp2 hc (by omega)
  have hnone := (findPattern_eq_none_iff _ pat hpat).mp hfp (o - bsp1)
    (by rw [hbl]; omega)
  have hslj : sliceL (sliceL content bsp1 crp2) (o - bsp1)
      (o - bsp1 + pat.length) = sliceL content o (o + pat.length) := by
    have := sliceL_sliceL content bsp1 crp2 (o - bsp1) (o - bsp1 + pat.length)
      (by omega)
    rw [this]
    congr 1
    · omega
    · omega
  rw [hslj] at hnone
  exact hnone ho3.2

theorem searchGo_spec (content pat : List Nat) (start endp cs : Nat)
    (hpat : pat ≠ []) (hcs : 1 ≤ cs) :
    ∀ (fuel bsp crp : Nat),
      start ≤ bsp → bsp < crp → crp ≤ min endp content.length →
      (pat.length - 1 ≤ crp - bsp ∨ bsp = start) →
      (∀ o, start ≤ o → o + pat.length ≤ endp → occursAt content pat o →
        crp < o + pat.length) →
      min endp content.length + 1 ≤ fuel + crp →
      searchGo pat endp fuel
        ⟨⟨content, crp⟩, sliceL content bsp crp, bsp, crp, endp, cs,
          pat.length - 1, false⟩ =
        firstOccIn content pat start endp := by
  have hpl : 1 ≤ pat.length := List.length_pos.mpr hpat
  intro fuel
  induction fuel with
  | zero =>
    intro bsp crp h1 h2 h3 h4 h5 h6
    omega
  | succ fuel ih =>
    intro bsp crp h1 h2 h3 h4 h5 h6
    by_cases hcr : crp < min endp content.length
    · have hstep := chunksNext_step_some content endp cs (pat.length - 1) bsp crp
        h2 hcr hcs
      rw [searchGo, hstep]
      simp only []
      have hF1 : ∀ o, start ≤ o → o + pat.length ≤ endp →
          occursAt content pat o → max bsp (crp - (pat.length - 1)) ≤ o := by
        intro o ho1 ho2 ho3
        have := h5 o ho1 ho2 ho3
        omega
      have hb1s : start ≤ max bsp (crp - (pat.length - 1)) := by omega
      have hcrp2 : crp + 1 ≤
          min (max bsp (crp - (pat.length - 1)) + (pat.length - 1 + cs))
            (min endp content.length) := by omega
      cases hfp : findPattern
          (sliceL content (max bsp (crp - (pat.length - 1)))
            (min (max bsp (crp - (pat.length - 1)) + (pat.length - 1 + cs))
              (min endp content.length))) pat with
      | some off =>
        simp only []
        obtain ⟨hfp1, hfp2, hfp3⟩ := (findPattern_eq_some_iff _ pat off hpat).mp hfp
        have hbl : (sliceL content (max bsp (crp - (pat.length - 1)))
            (min (max bsp (crp - (pat.length - 1)) + (pat.length - 1 + cs))
              (min endp content.length))).length =
            min (max bsp (crp - (pat.length - 1)) + (pat.length - 1 + cs))
              (min endp content.length) - max bsp (crp - (pat.length - 1)) :=
          sliceL_length content _ _ (by omega) (by omega)
        rw [hbl] at hfp1
        have hvs : min (pat.length - 1)
            (min (max bsp (crp - (pat.length - 1)) + (pat.length - 1 + cs))
              (min endp content.length) - max bsp (crp - (pat.length - 1))) <
            off + pat.length := by omega
        rw [if_pos hvs]
        have hend : max bsp (crp - (pat.length - 1)) + off + pat.length ≤ endp := by
          omega
        rw [if_pos hend]
        exact (streamChunk_found content pat start endp
          (max bsp (crp - (pat.length - 1)))
          (min (max bsp (crp - (pat.length - 1)) + (pat.length - 1 + cs))
            (min endp content.length)) off hpat hb1s (by omega) hF1 (by omega)
          hfp).symm
      | none =>
        simp only []
        have hQ2 := streamChunk_notfound content pat start endp
          (max bsp (crp - (pat.length - 1)))
          (min (max bsp (crp - (pat.length - 1)) + (pat.length - 1 + cs))
            (min endp content.length)) hpat (by omega) hF1 hfp
        exact ih (max bsp (crp - (pat.length - 1)))
          (min (max bsp (crp - (pat.length - 1)) + (pat.length - 1 + cs))
            (min endp content.length))
          hb1s (by omega) (by omega) (by omega) hQ2 (by omega)
    · have hstop := chunksNext_step_none content endp cs (pat.length - 1) bsp crp
        (by omega) h3 (by omega)
      rw [searchGo, hstop]
      simp only []
      have hnone : firstOccIn content pat start endp = none := by
        rw [firstOccIn_eq_none_iff]
        rintro j ⟨hj1, hj2, hj3⟩
        have := h5 j hj1 hj2 hj3
        have := hj3.1
        omega
      rw [hnone]

theorem findPatternStreaming_spec (content pat : List Nat) (start endp : Nat)
    (hpat : pat ≠ []) (hse : start < endp) :
    findPatternStreaming content start endp pat =
      firstOccIn content pat start endp := by
  have hpl : 1 ≤ pat.length := List.length_pos.mpr hpat
  unfold findPatternStreaming
  rw [if_neg (by simp [hpat]; omega)]
  obtain ⟨fuel, hfuel⟩ : ∃ f, endp + 2 - start = f + 1 := ⟨endp + 1 - start, by omega⟩
  rw [hfuel]
  by_cases hs : start < content.length
  · have hfirst := chunksNext_first_some content start endp 4096 (pat.length - 1)
      (by omega) (by omega)
    rw [searchGo, hfirst]
    simp only []
    have hF1 : ∀ o, start ≤ o → o + pat.length ≤ endp →
        occursAt content pat o → start ≤ o := fun o ho _ _ => ho
    cases hfp : findPattern
        (sliceL content start (min (start + 4096) (min endp content.length)))
        pat with
    | some off =>
      simp only []
      obtain ⟨hfp1, hfp2, hfp3⟩ := (findPattern_eq_some_iff _ pat off hpat).mp hfp
      have hbl : (sliceL content start
          (min (start + 4096) (min endp content.length))).length =
          min (start + 4096) (min endp content.length) - start :=
        sliceL_length content _ _ (by omega) (by omega)
      rw [hbl] at hfp1
      rw [if_pos (by omega : (0 : Nat) < off + pat.length)]
      rw [if_pos (by omega : start + off + pat.length ≤ endp)]
      exact (streamChunk_found content pat start endp start
        (min (start + 4096) (min endp content.length)) off hpat le_rfl (by omega)
        hF1 (by omega) hfp).symm
    | none =>
      simp only []
      have hQ2 := streamChunk_notfound content pat start endp start
        (min (start + 4096) (min endp content.length)) hpat (by omega) hF1 hfp
      exact searchGo_spec content pat start endp 4096 hpat (by omega) fuel start
        (min (start + 4096) (min endp content.length)) le_rfl (by omega) (by omega)
        (Or.inr rfl) hQ2 (by omega)
  · have hnone := chunksNext_first_exhausted content start endp 4096
      (pat.length - 1) (by omega)
    rw [searchGo, hnone]
    have hocc : firstOccIn content pat start endp = none := by
      rw [firstOccIn_eq_none_iff]
      rintro j ⟨hj1, hj2, hj3⟩
      have := hj3.1
      omega
    rw [hocc]

/-- C1: for every buffer content `C` and every non-empty pattern `P`,
`find_next(P, 0)` returns `Some i` exactly when `i` is the smallest offset
at which `P` occurs in `C`, and `None` exactly when `P` does not occur in
`C` - the streaming chunked search agrees with the exhaustive scan. -/
theorem c1_find_next_first_occurrence (content pat : List Nat)
    (hpat : pat ≠ []) :
    (∀ i, findNext content pat 0 = some i ↔
      (occursAt content pat i ∧ ∀ j, j < i → ¬ occursAt content pat j)) ∧
    (findNext content pat 0 = none ↔ ∀ i, ¬ occursAt content pat i) := by
  have hpl : 1 ≤ pat.length := List.length_pos.mpr hpat
  have hkey : findNext content pat 0 = firstOccIn content pat 0 content.length := by
    unfold findNext
    rw [if_neg hpat]
    by_cases hlen : 0 < content.length
    · rw [if_pos hlen,
        findPatternStreaming_spec content pat 0 content.length hpat hlen]
      cases h : firstOccIn content pat 0 content.length with
      | some o => simp
      | none => simp
    · rw [if_neg hlen]
      simp only []
      have : firstOccIn content pat 0 content.length = none := by
        rw [firstOccIn_eq_none_iff]
        rintro j ⟨_, hj2, _⟩
        omega
      rw [this]
      simp
  constructor
  · intro i
    rw [hkey, firstOccIn_eq_some_iff]
    constructor
    · rintro ⟨_, _, h3, h4⟩
      refine ⟨h3, fun j hj hocc => h4 j hj ⟨by omega, by exact hocc.1, hocc⟩⟩
    · rintro ⟨h3, h4⟩
      have := h3.1
      exact ⟨by omega, by omega, h3, fun j hj hq => h4 j hj hq.2.2⟩
  · rw [hkey, firstOccIn_eq_none_iff]
    constructor
    · intro hall i hocc
      exact hall i ⟨by omega, hocc.1, hocc⟩
    · intro hall j hq
      exact hall j hq.2.2

/-- C1 witness: the equivalence applied at content `"abc"`, pattern `"b"`:
the streaming search returns the least occurrence offset 1. -/
theorem c1_witness : findNext [97, 98, 99] [98] 0 = some 1 :=
  ((c1_find_next_first_occurrence [97, 98, 99] [98] (by decide)).1 1).mpr
    ⟨by decide, by decide⟩

/-- C3: for every non-empty pattern, `find_next(P, start)` returns the first
occurrence of `P` contained in `[start, length)` when one exists, otherwise
the first occurrence contained in `[0, start)`, otherwise `None` ("the first
match in cyclic order": an occurrence lies in a half-open window when it is
contained in it, which is what both streaming passes of `find_next`
enforce via their `match_pos + pattern.len() <= end` check). -/
theorem c3_find_next_cyclic_order (content pat : List Nat) (s : Nat)
    (hpat : pat ≠ []) :
    findNext content pat s =
      match firstOccIn content pat s content.length with
      | some o => some o
      | none => firstOccIn content pat 0 s := by
  have hpl : 1 ≤ pat.length := List.length_pos.mpr hpat
  have hzero : s = 0 → firstOccIn content pat 0 s = none := by
    intro hs
    rw [firstOccIn_eq_none_iff]
    rintro j ⟨_, hj2, _⟩
    omega
  unfold findNext
  rw [if_neg hpat]
  by_cases h1 : s < content.length
  · rw [if_pos h1, findPatternStreaming_spec content pat s content.length hpat h1]
    cases hr : firstOccIn content pat s content.length with
    | some o => simp
    | none =>
      simp only []
      by_cases h2 : 0 < s
      · rw [if_pos h2, findPatternStreaming_spec content pat 0 s hpat h2]
      · rw [if_neg h2, hzero (by omega)]
  · rw [if_neg h1]
    have hr : firstOccIn content pat s content.length = none := by
      rw [firstOccIn_eq_none_iff]
      rintro j ⟨hj1, hj2, hj3⟩
      omega
    rw [hr]
    simp only []
    by_cases h2 : 0 < s
    · rw [if_pos h2, findPatternStreaming_spec content pat 0 s hpat h2]
    · rw [if_neg h2, hzero (by omega)]

/-- C3 witness: the cyclic-order theorem applied to the scenario content
`"hello world hello"`: `find_next("hello", 1) = 12` (first occurrence in
`[1, 17)`) and `find_next("hello", 13) = 0` (wrap-around to `[0, 13)`). -/
theorem c3_witness :
    findNext [104, 101, 108, 108, 111, 32, 119, 111, 114, 108, 100, 32,
        104, 101, 108, 108, 111] [104, 101, 108, 108, 111] 1 = some 12 ∧
    findNext [104, 101, 108, 108, 111, 32, 119, 111, 114, 108, 100, 32,
        104, 101, 108, 108, 111] [104, 101, 108, 108, 111] 13 = some 0 :=
  ⟨(c3_find_next_cyclic_order [104, 101, 108, 108, 111, 32, 119, 111, 114,
      108, 100, 32, 104, 101, 108, 108, 111] [104, 101, 108, 108, 111] 1
      (by decide)).trans (by decide),
   (c3_find_next_cyclic_order [104, 101, 108, 108, 111, 32, 119, 111, 114,
      108, 100, 32, 104, 101, 108, 108, 111] [104, 101, 108, 108, 111] 13
      (by decide)).trans (by decide)⟩

/-! Claim C4: `next()` followed by `prev()` on the line iterator. -/

/-- Reference function: the start of the line containing position `q` (one
past the last newline strictly before `q`, or 0). -/
def lineStartOf (content : List Nat) : Nat → Nat
  | 0 => 0
  | q + 1 => if content[q]? = some 10 then q + 1 else lineStartOf content q

/-- Reference function: the bytes of one line - everything up to and
including the first newline, or the whole list. -/
def takeNl : List Nat → List Nat
  | [] => []
  | b :: r => if b = 10 then [10] else b :: takeNl r

theorem scanBack_spec (content : List Nat) :
    ∀ (fuel q : Nat), q ≤ fuel →
      scanBack fuel ⟨content, q⟩ = ⟨content, lineStartOf content q⟩ := by
  intro fuel
  induction fuel with
  | zero =>
    intro q hq
    have : q = 0 := by omega
    subst this
    rw [scanBack, lineStartOf]
  | succ fuel ih =>
    intro q hq
    cases q with
    | zero => rw [scanBack, lineStartOf]; rfl
    | succ q =>
      rw [scanBack, if_neg (by omega : ¬ (q + 1 = 0))]
      have hprev : (ByteIterator.prev ⟨content, q + 1⟩).2 = ⟨content, q⟩ := by
        unfold ByteIterator.prev
        rw [if_neg (by omega : ¬ (q + 1 = 0))]
        rfl
      simp only [hprev, ByteIterator.peek]
      split
      · next heq =>
        unfold ByteIterator.next
        rw [heq]
        rw [lineStartOf, if_pos heq]
      · next hne =>
        rw [ih q (by omega)]
        rw [lineStartOf, if_neg (by intro hc; exact hne hc)]

theorem lineStartOf_le (content : List Nat) : ∀ q, lineStartOf content q ≤ q := by
  intro q
  induction q with
  | zero => rw [lineStartOf]
  | succ q ih =>
    rw [lineStartOf]
    by_cases h : content[q]? = some 10
    · rw [if_pos h]
    · rw [if_neg h]; omega

theorem lineStartOf_is_start (content : List Nat) :
    ∀ q, lineStartOf content q = 0 ∨
      content[lineStartOf content q - 1]? = some 10 := by
  intro q
  induction q with
  | zero => left; rw [lineStartOf]
  | succ q ih =>
    rw [lineStartOf]
    by_cases h : content[q]? = some 10
    · rw [if_pos h]; right; simpa using h
    · rw [if_neg h]; exact ih

theorem lineStartOf_no_nl (content : List Nat) :
    ∀ q j, lineStartOf content q ≤ j → j < q → content[j]? ≠ some 10 := by
  intro q
  induction q with
  | zero => intro j h1 h2; omega
  | succ q ih =>
    intro j h1 h2
    rw [lineStartOf] at h1
    by_cases h : content[q]? = some 10
    · rw [if_pos h] at h1; omega
    · rw [if_neg h] at h1
      by_cases hj : j = q
      · subst hj; exact h
      · exact ih j h1 (by omega)

theorem lineStartOf_eq_of (content : List Nat) (s : Nat)
    (hstart : s = 0 ∨ content[s - 1]? = some 10) :
    ∀ q, s ≤ q → (∀ j, s ≤ j → j < q → content[j]? ≠ some 10) →
      lineStartOf content q = s := by
  intro q
  induction q with
  | zero => intro h1 _; rw [lineStartOf]; omega
  | succ q ih =>
    intro h1 h2
    rw [lineStartOf]
    by_cases hq : s = q + 1
    · subst hq
      rcases hstart with h0 | hnl
      · omega
      · rw [if_pos (by simpa using hnl)]
    · have hsq : s ≤ q := by omega
      rw [if_neg (h2 q hsq (by omega))]
      exact ih hsq fun j hj1 hj2 => h2 j hj1 (by omega)

theorem takeNl_length_le (l : List Nat) : (takeNl l).length ≤ l.length := by
  induction l with
  | nil => rw [takeNl]
  | cons b r ih =>
    rw [takeNl]
    by_cases h : b = 10
    · rw [if_pos h]; simp
    · rw [if_neg h]; simpa using ih

theorem takeNl_ne_nil (l : List Nat) (h : l ≠ []) : takeNl l ≠ [] := by
  cases l with
  | nil => exact absurd rfl h
  | cons b r =>
    rw [takeNl]
    by_cases hb : b = 10
    · rw [if_pos hb]; simp
    · rw [if_neg hb]; simp

theorem takeNl_no_nl (l : List Nat) :
    ∀ j, j + 1 < (takeNl l).length → l[j]? ≠ some 10 := by
  induction l with
  | nil => intro j hj; rw [takeNl] at hj; simp at hj
  | cons b r ih =>
    intro j hj
    rw [takeNl] at hj
    by_cases hb : b = 10
    · rw [if_pos hb] at hj; simp at hj
    · rw [if_neg hb] at hj
      cases j with
      | zero =>
        simp only [List.getElem?_cons_zero]
        intro hc
        exact hb (by injection hc)
      | succ j =>
        simp only [List.getElem?_cons_succ]
        exact ih j (by simpa using hj)

theorem readLineLoop_spec (content : List Nat) :
    ∀ (fuel s : Nat) (acc : List Nat),
      content.length - s < fuel →
      readLineLoop fuel ⟨content, s⟩ acc =
        (acc ++ takeNl (content.drop s),
          ⟨content, s + (takeNl (content.drop s)).length⟩) := by
  intro fuel
  induction fuel with
  | zero => intro s acc h; omega
  | succ fuel ih =>
    intro s acc h
    rw [readLineLoop]
    by_cases hs : s < content.length
    · have hget : content[s]? = some content[s] := List.getElem?_eq_getElem hs
      have hdrop : content.drop s = content[s] :: content.drop (s + 1) :=
        List.drop_eq_getElem_cons hs
      by_cases hb : content[s] = 10
      · have : ByteIterator.next ⟨content, s⟩ =
            (some 10, ⟨content, s + 1⟩) := by
          unfold ByteIterator.next
          rw [hget, hb]
        rw [this]
        simp only []
        rw [hdrop, hb, takeNl]
        simp
      · have hnext : ByteIterator.next ⟨content, s⟩ =
            (some content[s], ⟨content, s + 1⟩) := by
          unfold ByteIterator.next
          rw [hget]
        rw [hnext]
        simp only []
        rw [ih (s + 1) (acc ++ [content[s]]) (by omega)]
        rw [hdrop, takeNl, if_neg hb]
        simp only [List.append_assoc, List.singleton_append, List.length_cons]
        have heq : s + 1 + (takeNl (List.drop (s + 1) content)).length =
            s + ((takeNl (List.drop (s + 1) content)).length + 1) := by omega
        rw [heq]
    · have hget : content[s]? = none := by rw [List.getElem?_eq_none]; omega
      have hdrop : content.drop s = [] := by
        rw [List.drop_eq_nil_iff]
        omega
      have : ByteIterator.next ⟨content, s⟩ = (none, ⟨content, s⟩) := by
        unfold ByteIterator.next
        rw [hget]
      rw [this]
      simp only []
      rw [hdrop, takeNl]
      simp

theorem lineNext_spec (content : List Nat) (s : Nat) (hs : s < content.length) :
    LineIterator.next ⟨⟨content, s⟩⟩ =
      some ((s, takeNl (content.drop s)),
        ⟨⟨content, s + (takeNl (content.drop s)).length⟩⟩) := by
  unfold LineIterator.next
  rw [if_neg (by unfold ByteIterator.buffer_len; simp only []; omega)]
  simp only [ByteIterator.buffer_len]
  rw [readLineLoop_spec content (content.length + 1) s [] (by omega)]
  simp

theorem lineNext_none (content : List Nat) (s : Nat) (hs : content.length ≤ s) :
    LineIterator.next ⟨⟨content, s⟩⟩ = none := by
  unfold LineIterator.next
  rw [if_pos (by unfold ByteIterator.buffer_len; simp only []; omega)]

/-- C4: on every buffer and from every byte position, when the freshly
created line iterator's `next()` returns a `(line_start, line_content)`
pair, the immediately following `prev()` returns the same pair - the
intentional asymmetric cursor contract. -/
theorem c4_next_then_prev_same_line (content : List Nat) (p : Nat)
    (r : Nat × List Nat) (li' : LineIterator)
    (h : (lineIterator content p).next = some (r, li')) :
    ∃ li'', li'.prev = some (r, li'') := by
  unfold lineIterator LineIterator.new at h
  have hiter : iterAt content (min p content.length) =
      ⟨content, min p content.length⟩ := by
    unfold iterAt
    congr 1
    omega
  rw [hiter] at h
  simp only [] at h
  rw [scanBack_spec content (min p content.length) (min p content.length) le_rfl]
    at h
  set s := lineStartOf content (min p content.length) with hs
  by_cases hsl : s < content.length
  · rw [lineNext_spec content s hsl] at h
    set lb := takeNl (content.drop s) with hlb
    set e := s + lb.length with he
    injection h with h1
    have hr : r = (s, lb) := (congrArg Prod.fst h1).symm
    have hli : li' = ⟨⟨content, e⟩⟩ := (congrArg Prod.snd h1).symm
    subst hr
    subst hli
    have hlbne : lb ≠ [] := by
      rw [hlb]
      apply takeNl_ne_nil
      intro hnil
      rw [List.drop_eq_nil_iff] at hnil
      omega
    have hlbpos : 0 < lb.length := List.length_pos.mpr hlbne
    have hlble : lb.length ≤ content.length - s := by
      have h1 := takeNl_length_le (content.drop s)
      have h2 : (content.drop s).length = content.length - s := by simp
      rw [hlb]
      omega
    have hele : e ≤ content.length := by omega
    unfold LineIterator.prev
    rw [if_neg (by simp only []; omega)]
    simp only []
    have hseek : ByteIterator.seek ⟨content, e⟩ (e - 1) = ⟨content, e - 1⟩ := by
      unfold ByteIterator.seek
      congr 1
      simp only []
      omega
    rw [hseek]
    simp only []
    rw [scanBack_spec content (e - 1) (e - 1) le_rfl]
    have hls : lineStartOf content (e - 1) = s := by
      apply lineStartOf_eq_of content s (lineStartOf_is_start content _)
      · omega
      · intro j hj1 hj2
        have hidx : content[j]? = (content.drop s)[j - s]? := by
          rw [List.getElem?_drop]
          congr 1
          omega
        rw [hidx]
        apply takeNl_no_nl (content.drop s) (j - s)
        rw [← hlb]
        omega
    rw [hls]
    simp only [ByteIterator.buffer_len]
    rw [readLineLoop_spec content (content.length + 1) s [] (by omega)]
    simp only [List.nil_append, ← hlb]
    exact ⟨_, rfl⟩
  · rw [lineNext_none content s (by omega)] at h
    cases h

/-- C4 witness: the theorem applied to the scenario - content
`"Line 1\nLine 2\nLine 3"`, iterator created at offset 10: `next()` returns
`(7, "Line 2\n")` and the immediately following `prev()` returns the same
pair. -/
theorem c4_witness :
    (lineIterator [76, 105, 110, 101, 32, 49, 10, 76, 105, 110, 101, 32, 50,
        10, 76, 105, 110, 101, 32, 51] 10).next =
      some (((7 : Nat), [76, 105, 110, 101, 32, 50, 10]),
        ⟨⟨[76, 105, 110, 101, 32, 49, 10, 76, 105, 110, 101, 32, 50, 10, 76,
          105, 110, 101, 32, 51], 14⟩⟩) ∧
    ∃ li'', LineIterator.prev
        ⟨⟨[76, 105, 110, 101, 32, 49, 10, 76, 105, 110, 101, 32, 50, 10, 76,
          105, 110, 101, 32, 51], 14⟩⟩ =
        some (((7 : Nat), [76, 105, 110, 101, 32, 50, 10]), li'') :=
  ⟨by decide,
    c4_next_then_prev_same_line
      [76, 105, 110, 101, 32, 49, 10, 76, 105, 110, 101, 32, 50, 10, 76, 105,
        110, 101, 32, 51] 10 ((7 : Nat), [76, 105, 110, 101, 32, 50, 10])
      ⟨⟨[76, 105, 110, 101, 32, 49, 10, 76, 105, 110, 101, 32, 50, 10, 76,
        105, 110, 101, 32, 51], 14⟩⟩ (by decide)⟩

/-! Claim C8: word-boundary classification and scan results. -/

/-- Helper scan: the first index at or after the start of the given suffix
whose byte satisfies `p`. -/
def upFirstAux (p : Nat → Bool) : List Nat → Nat → Option Nat
  | [], _ => none
  | b :: r, cur => if p b then some cur else upFirstAux p r (cur + 1)

/-- First index `i ≥ cur` with `p content[i]`, if any. -/
def upFirst (l : List Nat) (p : Nat → Bool) (cur : Nat) : Option Nat :=
  upFirstAux p (l.drop cur) cur

/-- Last index `i` with `1 ≤ i ≤ j` and `p content[i]`, if any (index 0 is
never examined, mirroring the `position() > 0` loop guard of
`prev_word_boundary`). -/
def downFirst (l : List Nat) (p : Nat → Bool) : Nat → Option Nat
  | 0 => none
  | j + 1 =>
    match l[j + 1]? with
    | some b => if p b then some (j + 1) else downFirst l p j
    | none => downFirst l p j

/-- Extensional description of `next_word_boundary`: find the first word
byte at or after `pos`, then the first non-word byte after it, and return
one past that non-word byte; `len` when either scan fails. -/
def nextWordExt (content : List Nat) (pos : Nat) : Nat :=
  if content.length ≤ pos then content.length
  else
    match upFirst content isWordByte pos with
    | none => content.length
    | some w =>
      match upFirst content (fun b => ! isWordByte b) (w + 1) with
      | none => content.length
      | some j => j + 1

/-- Extensional description of `prev_word_boundary`: find the last word
byte at index ≥ 1 below `pos`, then the last non-word byte at index ≥ 1
below it, and return one past that non-word byte; 0 when either scan
fails. -/
def prevWordExt (content : List Nat) (pos : Nat) : Nat :=
  if pos = 0 then 0
  else
    match downFirst content isWordByte (min (pos - 1) content.length) with
    | none => 0
    | some w =>
      match downFirst content (fun b => ! isWordByte b) (w - 1) with
      | none => 0
      | some n => n + 1

/-- The claim-side ASCII-only classification ("ASCII alphanumeric byte or
an underscore"). -/
def asciiWordByte (b : Nat) : Bool :=
  (48 ≤ b ∧ b ≤ 57) ∨ (65 ≤ b ∧ b ≤ 90) ∨ (97 ≤ b ∧ b ≤ 122) ∨ b = 95

/-- The claim-side "position of the first word-to-non-word or
non-word-to-word transition in forward scan direction": the first index
`i > pos` where the ASCII classification of `content[i-1]` and
`content[i]` differ. -/
def firstTransitionFrom (content : List Nat) (pos : Nat) : Option Nat :=
  (List.range content.length).find? fun i =>
    decide (pos < i ∧
      asciiWordByte (content.getD (i - 1) 0) ≠ asciiWordByte (content.getD i 0))

theorem upFirst_eq (l : List Nat) (p : Nat → Bool) (cur : Nat) :
    upFirst l p cur =
      match l[cur]? with
      | none => none
      | some b => if p b then some cur else upFirst l p (cur + 1) := by
  unfold upFirst
  cases h : l[cur]? with
  | none =>
    have hd : l.drop cur = [] := by
      rw [List.drop_eq_nil_iff]
      rw [List.getElem?_eq_none_iff] at h
      omega
    rw [hd]
    rfl
  | some b =>
    have hlt : cur < l.length := by
      rw [List.getElem?_eq_some_iff] at h
      obtain ⟨hh, _⟩ := h
      exact hh
    have hd : l.drop cur = l[cur] :: l.drop (cur + 1) :=
      List.drop_eq_getElem_cons hlt
    have hb : l[cur] = b := by
      rw [List.getElem?_eq_getElem hlt] at h
      injection h
    rw [hd, hb]
    rfl

theorem upFirst_len (l : List Nat) (p : Nat → Bool) (cur : Nat)
    (h : l.length ≤ cur) : upFirst l p cur = none := by
  rw [upFirst_eq]
  rw [List.getElem?_eq_none h]

theorem nextWBGo_eq (content : List Nat) :
    ∀ (fuel : Nat) (cur : Nat) (found : Bool),
      content.length + 1 ≤ fuel + cur →
      nextWBGo content fuel cur found =
        if found then
          match upFirst content (fun b => ! isWordByte b) cur with
          | none => content.length
          | some j => j + 1
        else
          match upFirst content isWordByte cur with
          | none => content.length
          | some w =>
            match upFirst content (fun b => ! isWordByte b) (w + 1) with
            | none => content.length
            | some j => j + 1 := by
  intro fuel
  induction fuel with
  | zero =>
    intro cur found h
    have hcur : content.length ≤ cur := by omega
    rw [nextWBGo]
    rw [upFirst_len content _ cur hcur, upFirst_len content _ cur hcur]
    cases found <;> simp
  | succ fuel ih =>
    intro cur found h
    rw [nextWBGo]
    by_cases hcur : content.length ≤ cur
    · rw [if_pos hcur]
      rw [upFirst_len content _ cur hcur, upFirst_len content _ cur hcur]
      cases found <;> simp
    · rw [if_neg hcur]
      have hlt : cur < content.length := by omega
      have hget : content[cur]? = some content[cur] := List.getElem?_eq_getElem hlt
      rw [hget]
      simp only []
      by_cases hw : isWordByte content[cur]
      · rw [if_neg (by simp [hw])]
        rw [ih (cur + 1) (found || isWordByte content[cur]) (by omega)]
        cases found with
        | true =>
          simp only [Bool.true_or, if_true]
          rw [upFirst_eq content (fun b => ! isWordByte b) cur, hget]
          simp only [hw]
          rw [if_neg (by simp)]
        | false =>
          simp only [Bool.false_or, hw, if_true, if_false]
          rw [upFirst_eq content isWordByte cur, hget]
          simp only [hw, if_true]
          simp
      · cases found with
        | true =>
          rw [if_pos (by simp [hw])]
          rw [upFirst_eq content (fun b => ! isWordByte b) cur, hget]
          simp only [if_true]
          rw [if_pos (by simp [hw])]
        | false =>
          rw [if_neg (by simp)]
          rw [ih (cur + 1) (false || isWordByte content[cur]) (by omega)]
          simp only [Bool.false_or, hw, if_false]
          rw [upFirst_eq content isWordByte cur, hget]
          simp only []
          rw [if_neg hw]
          simp

theorem downFirst_succ (l : List Nat) (p : Nat → Bool) (j : Nat) :
    downFirst l p (j + 1) =
      match l[j + 1]? with
      | some b => if p b then some (j + 1) else downFirst l p j
      | none => downFirst l p j := by
  rw [downFirst]

theorem prevWBGo_eq (content : List Nat) :
    ∀ (fuel : Nat) (j : Nat) (found : Bool),
      j + 1 ≤ fuel →
      prevWBGo content fuel j found =
        if found then
          match downFirst content (fun b => ! isWordByte b) j with
          | none => 0
          | some n => n + 1
        else
          match downFirst content isWordByte j with
          | none => 0
          | some w =>
            match downFirst content (fun b => ! isWordByte b) (w - 1) with
            | none => 0
            | some n => n + 1 := by
  intro fuel
  induction fuel with
  | zero => intro j found h; omega
  | succ fuel ih =>
    intro j found h
    rw [prevWBGo]
    cases j with
    | zero =>
      rw [if_pos rfl]
      unfold downFirst
      cases found <;> simp
    | succ j =>
      rw [if_neg (by omega : ¬ (j + 1 = 0))]
      cases hget : content[j + 1]? with
      | none =>
        simp only [Nat.add_sub_cancel]
        rw [ih j found (by omega)]
        rw [downFirst_succ content (fun b => ! isWordByte b) j,
          downFirst_succ content isWordByte j, hget]
      | some b =>
        simp only [Nat.add_sub_cancel]
        by_cases hw : isWordByte b
        · rw [if_neg (by simp [hw])]
          rw [ih j (found || isWordByte b) (by omega)]
          cases found with
          | true =>
            simp only [Bool.true_or, if_true]
            rw [downFirst_succ content (fun b => ! isWordByte b) j, hget]
            simp only []
            rw [if_neg (by simp [hw])]
          | false =>
            simp only [Bool.false_or, hw, if_true, if_false]
            rw [downFirst_succ content isWordByte j, hget]
            simp only [hw, if_true, Nat.add_sub_cancel]
            simp
        · cases found with
          | true =>
            rw [if_pos (by simp [hw])]
            rw [downFirst_succ content (fun b => ! isWordByte b) j, hget]
            simp only [if_true]
            rw [if_pos (by simp [hw])]
          | false =>
            rw [if_neg (by simp)]
            rw [ih j (false || isWordByte b) (by omega)]
            simp only [Bool.false_or, hw, if_false]
            rw [downFirst_succ content isWordByte j, hget]
            simp only []
            rw [if_neg hw]
            simp

/-- C8 counterexample: the claim says the byte 0xC0 (and every byte in
0x80-0xFF) is classified as non-word and that the scan returns the position
of the first classification transition.  On content `[0x61, 0xC0, 0x20]`
(`"a"`, `'À'`, space) from position 0, the ASCII-only classification has its
first (and only word-to-non-word) transition between indices 0 and 1, yet
`next_word_boundary` returns 3: it treats 0xC0 (Latin-1 `'À'`, Unicode
alphanumeric) as a word byte and returns one past the following non-word
byte - not 1, nor 0 or 2 under any other convention for naming the
transition position. -/
theorem c8_counterexample :
    firstTransitionFrom [97, 192, 32] 0 = some 1 ∧
    nextWordBoundary [97, 192, 32] 0 = 3 ∧
    (3 : Nat) ≠ 0 ∧ (3 : Nat) ≠ 1 ∧ (3 : Nat) ≠ 2 := by
  decide

/-- C8 (amended): a byte is classified as a word byte exactly when its
Latin-1 interpretation (`byte as char`) is Unicode-alphanumeric or is an
underscore - so ASCII alphanumerics, `_`, and the Latin-1 alphanumeric
bytes 0xAA 0xB2 0xB3 0xB5 0xB9 0xBA 0xBC 0xBD 0xBE, 0xC0-0xD6, 0xD8-0xF6
and 0xF8-0xFF are word bytes (`isWordByte`).  `next_word_boundary(pos)`
returns one past the first non-word byte that follows the first word byte
at or after `pos` (or `len` when there is no such pair), and
`prev_word_boundary(pos)` returns one past the last non-word byte at index
`≥ 1` below the last word byte at index `≥ 1` below `pos` (0 when either
scan fails; the byte at index 0 is never examined). -/
theorem c8_word_boundary_scan (content : List Nat) (pos : Nat) :
    nextWordBoundary content pos = nextWordExt content pos ∧
    prevWordBoundary content pos = prevWordExt content pos := by
  constructor
  · unfold nextWordBoundary nextWordExt
    by_cases hp : content.length ≤ pos
    · rw [if_pos hp, if_pos hp]
    · rw [if_neg hp, if_neg hp]
      rw [nextWBGo_eq content (content.length + 1 - pos) pos false (by omega)]
      simp
  · unfold prevWordBoundary prevWordExt
    by_cases hp : pos = 0
    · rw [if_pos hp, if_pos hp]
    · rw [if_neg hp, if_neg hp]
      rw [prevWBGo_eq content (min (pos - 1) content.length + 1)
        (min (pos - 1) content.length) false (by omega)]
      simp

/-! Claim C5: UTF-8 character-boundary round-trip. -/

set_option maxRecDepth 4000 in
theorem leadingByte_table :
    ∀ b : Fin 256, leadingByte b.val = decide (b.val < 128 ∨ 192 ≤ b.val) := by
  decide

theorem leadingByte_true_of (b : Nat) (h : b < 128 ∨ (192 ≤ b ∧ b < 256)) :
    leadingByte b = true := by
  have hb : b < 256 := by omega
  have := leadingByte_table ⟨b, hb⟩
  simp only [] at this
  rw [this]
  rw [decide_eq_true_eq]
  omega

theorem leadingByte_false_of (b : Nat) (h1 : 128 ≤ b) (h2 : b < 192) :
    leadingByte b = false := by
  have hb : b < 256 := by omega
  have := leadingByte_table ⟨b, hb⟩
  simp only [] at this
  rw [this]
  rw [decide_eq_false_iff_not]
  omega

theorem utf8EncodeScalar_length (v : Nat) :
    (utf8EncodeScalar v).length = lenUtf8 v := by
  unfold utf8EncodeScalar lenUtf8
  by_cases h1 : v < 128
  · rw [if_pos h1, if_pos h1]; rfl
  · rw [if_neg h1, if_neg h1]
    by_cases h2 : v < 2048
    · rw [if_pos h2, if_pos h2]; rfl
    · rw [if_neg h2, if_neg h2]
      by_cases h3 : v < 65536
      · rw [if_pos h3, if_pos h3]; rfl
      · rw [if_neg h3, if_neg h3]; rfl

theorem lenUtf8_pos (v : Nat) : 1 ≤ lenUtf8 v := by
  unfold lenUtf8
  by_cases h1 : v < 128
  · rw [if_pos h1]
  · rw [if_neg h1]
    by_cases h2 : v < 2048
    · rw [if_pos h2]; omega
    · rw [if_neg h2]
      by_cases h3 : v < 65536
      · rw [if_pos h3]; omega
      · rw [if_neg h3]; omega

theorem lenUtf8_le_four (v : Nat) : lenUtf8 v ≤ 4 := by
  unfold lenUtf8
  by_cases h1 : v < 128
  · rw [if_pos h1]; omega
  · rw [if_neg h1]
    by_cases h2 : v < 2048
    · rw [if_pos h2]; omega
    · rw [if_neg h2]
      by_cases h3 : v < 65536
      · rw [if_pos h3]; omega
      · rw [if_neg h3]

theorem enc_bytes (v : Nat) (hv : v < 1114112) :
    ∃ b0, (utf8EncodeScalar v)[0]? = some b0 ∧ leadingByte b0 = true ∧
      ∀ i, 1 ≤ i → i < (utf8EncodeScalar v).length →
        ∃ b, (utf8EncodeScalar v)[i]? = some b ∧ leadingByte b = false := by
  unfold utf8EncodeScalar
  by_cases h1 : v < 128
  · rw [if_pos h1]
    refine ⟨v, rfl, leadingByte_true_of v (Or.inl h1), ?_⟩
    intro i hi1 hi2
    simp at hi2
    omega
  · rw [if_neg h1]
    by_cases h2 : v < 2048
    · rw [if_pos h2]
      refine ⟨192 + v / 64, rfl,
        leadingByte_true_of _ (Or.inr (by omega)), ?_⟩
      intro i hi1 hi2
      simp at hi2
      have : i = 1 := by omega
      subst this
      exact ⟨128 + v % 64, rfl, leadingByte_false_of _ (by omega) (by omega)⟩
    · rw [if_neg h2]
      by_cases h3 : v < 65536
      · rw [if_pos h3]
        refine ⟨224 + v / 4096, rfl,
          leadingByte_true_of _ (Or.inr (by omega)), ?_⟩
        intro i hi1 hi2
        simp at hi2
        by_cases hi : i = 1
        · subst hi
          exact ⟨128 + v / 64 % 64, rfl,
            leadingByte_false_of _ (by omega) (by omega)⟩
        · have : i = 2 := by omega
          subst this
          exact ⟨128 + v % 64, rfl,
            leadingByte_false_of _ (by omega) (by omega)⟩
      · rw [if_neg h3]
        refine ⟨240 + v / 262144, rfl,
          leadingByte_true_of _ (Or.inr (by omega)), ?_⟩
        intro i hi1 hi2
        simp at hi2
        by_cases hi : i = 1
        · subst hi
          exact ⟨128 + v / 4096 % 64, rfl,
            leadingByte_false_of _ (by omega) (by omega)⟩
        · by_cases hi2' : i = 2
          · subst hi2'
            exact ⟨128 + v / 64 % 64, rfl,
              leadingByte_false_of _ (by omega) (by omega)⟩
          · have : i = 3 := by omega
            subst this
            exact ⟨128 + v % 64, rfl,
              leadingByte_false_of _ (by omega) (by omega)⟩

theorem encodeList_cons (v : Nat) (vs : List Nat) :
    encodeList (v :: vs) = utf8EncodeScalar v ++ encodeList vs := by
  unfold encodeList
  simp

theorem encodeList_append (a b : List Nat) :
    encodeList (a ++ b) = encodeList a ++ encodeList b := by
  unfold encodeList
  simp

theorem utf8Len_append (a b : List Nat) :
    utf8Len (a ++ b) = utf8Len a + utf8Len b := by
  unfold utf8Len
  rw [encodeList_append]
  simp

theorem utf8Len_cons (v : Nat) (vs : List Nat) :
    utf8Len (v :: vs) = lenUtf8 v + utf8Len vs := by
  unfold utf8Len
  rw [encodeList_cons]
  simp [utf8EncodeScalar_length]

theorem boundary_decomp (vs : List Nat) :
    ∀ p, IsBoundary vs p → p < utf8Len vs →
      ∃ vs1 v vs2, vs = vs1 ++ v :: vs2 ∧ p = utf8Len vs1 := by
  induction vs with
  | nil =>
    intro p hb hp
    unfold utf8Len encodeList at hp
    simp at hp
  | cons v vs ih =>
    intro p hb hp
    unfold IsBoundary at hb
    rcases hb with h0 | ⟨hle, hrest⟩
    · exact ⟨[], v, vs, rfl, by rw [h0]; rfl⟩
    · have hlt : p - lenUtf8 v < utf8Len vs := by
        rw [utf8Len_cons] at hp
        omega
      obtain ⟨vs1, w, vs2, heq, hplen⟩ := ih (p - lenUtf8 v) hrest hlt
      refine ⟨v :: vs1, w, vs2, by rw [heq]; rfl, ?_⟩
      rw [utf8Len_cons]
      omega

theorem utf8Len_nil : utf8Len [] = 0 := rfl

theorem encAt (vs1 : List Nat) (v : Nat) (vs2 : List Nat) (i : Nat)
    (hi : i < (utf8EncodeScalar v).length) :
    (encodeList (vs1 ++ v :: vs2))[utf8Len vs1 + i]? =
      (utf8EncodeScalar v)[i]? := by
  rw [encodeList_append, encodeList_cons]
  rw [List.getElem?_append_right (by unfold utf8Len; omega)]
  have hidx : utf8Len vs1 + i - (encodeList vs1).length = i := by
    unfold utf8Len
    omega
  rw [hidx]
  rw [List.getElem?_append, if_pos hi]

theorem len_decomp (vs1 : List Nat) (v : Nat) (vs2 : List Nat) :
    (encodeList (vs1 ++ v :: vs2)).length =
      utf8Len vs1 + lenUtf8 v + utf8Len vs2 := by
  show utf8Len (vs1 ++ v :: vs2) = _
  rw [utf8Len_append, utf8Len_cons]
  omega

theorem nextCBGo_cont (content : List Nat) (o fuel cur : Nat) (b : Nat)
    (hget : content[cur]? = some b) (hlead : leadingByte b = false)
    (hlt : cur < content.length) :
    nextCBGo content o (fuel + 1) cur = nextCBGo content o fuel (cur + 1) := by
  rw [nextCBGo]
  rw [if_neg (by omega), hget]
  simp only [hlead]
  rfl

theorem nextCBGo_stop_len (content : List Nat) (o fuel cur : Nat)
    (hge : content.length ≤ cur) :
    nextCBGo content o (fuel + 1) cur = content.length := by
  rw [nextCBGo, if_pos hge]

theorem nextCBGo_stop_lead (content : List Nat) (o fuel cur : Nat) (b : Nat)
    (hget : content[cur]? = some b) (hlead : leadingByte b = true)
    (hlt : cur < content.length) :
    nextCBGo content o (fuel + 1) cur = cur := by
  rw [nextCBGo]
  rw [if_neg (by omega), hget]
  simp only [hlead]
  rfl

theorem prevCBGo_zero (content : List Nat) (o fuel : Nat) :
    prevCBGo content o (fuel + 1) 0 = 0 := by
  rw [prevCBGo, if_pos rfl]

theorem prevCBGo_cont (content : List Nat) (o fuel j : Nat) (b : Nat)
    (hj : j ≠ 0) (hget : content[j]? = some b) (hlead : leadingByte b = false) :
    prevCBGo content o (fuel + 1) j = prevCBGo content o fuel (j - 1) := by
  rw [prevCBGo, if_neg hj, hget]
  simp only [hlead]
  rfl

theorem prevCBGo_lead (content : List Nat) (o fuel j : Nat) (b : Nat)
    (hj : j ≠ 0) (hget : content[j]? = some b) (hlead : leadingByte b = true) :
    prevCBGo content o (fuel + 1) j = j := by
  rw [prevCBGo, if_neg hj, hget]
  simp only [hlead]
  rfl

/-- C5 counterexample: the claim ranges over every boundary `p ∈ [0, length]`,
but at `p = length` the round trip lands on the start of the last character
instead: for the one-byte content `"a"`, `next_char_boundary(1) = 1` and
`prev_char_boundary(1) = 0 ≠ 1`. -/
theorem c5_counterexample :
    IsBoundary [97] 1 ∧ 1 ≤ utf8Len [97] ∧ (∀ v ∈ [97], IsScalar v) ∧
      prevCharBoundary (encodeList [97])
        (nextCharBoundary (encodeList [97]) 1) = 0 ∧ (0 : Nat) ≠ 1 := by
  decide

/-- C5 (amended): for every buffer whose content is the valid UTF-8
encoding of scalar values `vs` and every byte offset `p` that is a
character boundary with `p < length` (the claim's `p = length` case fails),
`prev_char_boundary(next_char_boundary(p)) = p`. -/
theorem c5_char_boundary_roundtrip (vs : List Nat) (p : Nat)
    (hvs : ∀ v ∈ vs, IsScalar v) (hb : IsBoundary vs p)
    (hp : p < utf8Len vs) :
    prevCharBoundary (encodeList vs)
      (nextCharBoundary (encodeList vs) p) = p := by
  obtain ⟨vs1, v, vs2, heq, hpeq⟩ := boundary_decomp vs p hb hp
  subst heq
  subst hpeq
  have hv : IsScalar v := hvs v (by simp)
  have hv4 : v < 1114112 := by
    unfold IsScalar at hv
    omega
  have hlen := len_decomp vs1 v vs2
  have hcl1 := lenUtf8_pos v
  have hcl4 := lenUtf8_le_four v
  have hencl := utf8EncodeScalar_length v
  obtain ⟨b0, hb0get, hb0lead, hconts⟩ := enc_bytes v hv4
  have hhead : (encodeList (vs1 ++ v :: vs2))[utf8Len vs1]? = some b0 := by
    have := encAt vs1 v vs2 0 (by omega)
    rw [← this] at hb0get
    simpa using hb0get
  have hcont : ∀ i, 1 ≤ i → i < lenUtf8 v →
      ∃ b, (encodeList (vs1 ++ v :: vs2))[utf8Len vs1 + i]? = some b ∧
        leadingByte b = false := by
    intro i hi1 hi2
    obtain ⟨b, hbg, hbl⟩ := hconts i hi1 (by omega)
    exact ⟨b, by rw [encAt vs1 v vs2 i (by omega)]; exact hbg, hbl⟩
  -- the byte at the following boundary, when it exists, is a leading byte
  have hafter : utf8Len vs1 + lenUtf8 v = (encodeList (vs1 ++ v :: vs2)).length ∨
      ∃ b, (encodeList (vs1 ++ v :: vs2))[utf8Len vs1 + lenUtf8 v]? = some b ∧
        leadingByte b = true := by
    cases vs2 with
    | nil =>
      left
      rw [hlen]
      simp [utf8Len_nil]
    | cons w vs2' =>
      right
      have hw : IsScalar w := hvs w (by simp)
      obtain ⟨c0, hc0get, hc0lead, _⟩ := enc_bytes w (by unfold IsScalar at hw; omega)
      have hsplit : vs1 ++ v :: w :: vs2' = (vs1 ++ [v]) ++ w :: vs2' := by simp
      have hL : utf8Len vs1 + lenUtf8 v = utf8Len (vs1 ++ [v]) := by
        rw [utf8Len_append, utf8Len_cons, utf8Len_nil]
        omega
      refine ⟨c0, ?_, hc0lead⟩
      rw [hsplit, hL]
      have := encAt (vs1 ++ [v]) w vs2' 0 (by
        rw [utf8EncodeScalar_length]
        have := lenUtf8_pos w
        omega)
      rw [← hc0get]
      simpa using this
  have hrange : lenUtf8 v = 1 ∨ lenUtf8 v = 2 ∨ lenUtf8 v = 3 ∨ lenUtf8 v = 4 := by
    have := lenUtf8_pos v
    have := lenUtf8_le_four v
    omega
  have hnstop : ∀ fuel, nextCBGo (encodeList (vs1 ++ v :: vs2)) (utf8Len vs1)
      (fuel + 1) (utf8Len vs1 + lenUtf8 v) = utf8Len vs1 + lenUtf8 v := by
    intro fuel
    rcases hafter with hEq | ⟨b, hbg, hbl⟩
    · rw [nextCBGo_stop_len _ _ fuel _ (by omega)]
      omega
    · have hblt : utf8Len vs1 + lenUtf8 v <
          (encodeList (vs1 ++ v :: vs2)).length := by
        rw [List.getElem?_eq_some_iff] at hbg
        exact hbg.1
      exact nextCBGo_stop_lead _ _ fuel _ b hbg hbl hblt
  have hpstop : ∀ fuel, prevCBGo (encodeList (vs1 ++ v :: vs2))
      (utf8Len vs1 + lenUtf8 v) (fuel + 1) (utf8Len vs1) = utf8Len vs1 := by
    intro fuel
    by_cases hp0 : utf8Len vs1 = 0
    · rw [hp0, prevCBGo_zero]
    · exact prevCBGo_lead _ _ fuel _ b0 hp0 hhead hb0lead
  have hnext_entry : nextCharBoundary (encodeList (vs1 ++ v :: vs2))
      (utf8Len vs1) =
      nextCBGo (encodeList (vs1 ++ v :: vs2)) (utf8Len vs1) 4
        (utf8Len vs1 + 1) := by
    unfold nextCharBoundary
    rw [if_neg (by omega)]
  have hprev_entry : prevCharBoundary (encodeList (vs1 ++ v :: vs2))
      (utf8Len vs1 + lenUtf8 v) =
      prevCBGo (encodeList (vs1 ++ v :: vs2)) (utf8Len vs1 + lenUtf8 v) 4
        (utf8Len vs1 + lenUtf8 v - 1) := by
    unfold prevCharBoundary
    rw [if_neg (by omega)]
    have hq1 : min (utf8Len vs1 + lenUtf8 v - 1)
        (encodeList (vs1 ++ v :: vs2)).length =
        utf8Len vs1 + lenUtf8 v - 1 := by omega
    rw [hq1]
  rcases hrange with hk | hk | hk | hk
  · have hnext : nextCharBoundary (encodeList (vs1 ++ v :: vs2)) (utf8Len vs1) =
        utf8Len vs1 + lenUtf8 v := by
      rw [hnext_entry]
      have he : utf8Len vs1 + 1 = utf8Len vs1 + lenUtf8 v := by omega
      rw [he, hnstop 3]
    rw [hnext, hprev_entry]
    have he : utf8Len vs1 + lenUtf8 v - 1 = utf8Len vs1 := by omega
    rw [he, hpstop 3]
  · obtain ⟨b1, hb1g, hb1l⟩ := hcont 1 (by omega) (by omega)
    have hnext : nextCharBoundary (encodeList (vs1 ++ v :: vs2)) (utf8Len vs1) =
        utf8Len vs1 + lenUtf8 v := by
      rw [hnext_entry, nextCBGo_cont _ _ 3 _ b1 hb1g hb1l (by omega)]
      have he : utf8Len vs1 + 1 + 1 = utf8Len vs1 + lenUtf8 v := by omega
      rw [he, hnstop 2]
    rw [hnext, hprev_entry]
    have he : utf8Len vs1 + lenUtf8 v - 1 = utf8Len vs1 + 1 := by omega
    rw [he, prevCBGo_cont _ _ 3 _ b1 (by omega) hb1g hb1l]
    have he2 : utf8Len vs1 + 1 - 1 = utf8Len vs1 := by omega
    rw [he2, hpstop 2]
  · obtain ⟨b1, hb1g, hb1l⟩ := hcont 1 (by omega) (by omega)
    obtain ⟨b2, hb2g, hb2l⟩ := hcont 2 (by omega) (by omega)
    have hnext : nextCharBoundary (encodeList (vs1 ++ v :: vs2)) (utf8Len vs1) =
        utf8Len vs1 + lenUtf8 v := by
      rw [hnext_entry, nextCBGo_cont _ _ 3 _ b1 hb1g hb1l (by omega)]
      have he : utf8Len vs1 + 1 + 1 = utf8Len vs1 + 2 := by omega
      rw [he, nextCBGo_cont _ _ 2 _ b2 hb2g hb2l (by omega)]
      have he2 : utf8Len vs1 + 2 + 1 = utf8Len vs1 + lenUtf8 v := by omega
      rw [he2, hnstop 1]
    rw [hnext, hprev_entry]
    have he : utf8Len vs1 + lenUtf8 v - 1 = utf8Len vs1 + 2 := by omega
    rw [he, prevCBGo_cont _ _ 3 _ b2 (by omega) hb2g hb2l]
    have he2 : utf8Len vs1 + 2 - 1 = utf8Len vs1 + 1 := by omega
    rw [he2, prevCBGo_cont _ _ 2 _ b1 (by omega) hb1g hb1l]
    have he3 : utf8Len vs1 + 1 - 1 = utf8Len vs1 := by omega
    rw [he3, hpstop 1]
  · obtain ⟨b1, hb1g, hb1l⟩ := hcont 1 (by omega) (by omega)
    obtain ⟨b2, hb2g, hb2l⟩ := hcont 2 (by omega) (by omega)
    obtain ⟨b3, hb3g, hb3l⟩ := hcont 3 (by omega) (by omega)
    have hnext : nextCharBoundary (encodeList (vs1 ++ v :: vs2)) (utf8Len vs1) =
        utf8Len vs1 + lenUtf8 v := by
      rw [hnext_entry, nextCBGo_cont _ _ 3 _ b1 hb1g hb1l (by omega)]
      have he : utf8Len vs1 + 1 + 1 = utf8Len vs1 + 2 := by omega
      rw [he, nextCBGo_cont _ _ 2 _ b2 hb2g hb2l (by omega)]
      have he2 : utf8Len vs1 + 2 + 1 = utf8Len vs1 + 3 := by omega
      rw [he2, nextCBGo_cont _ _ 1 _ b3 hb3g hb3l (by omega)]
      have he3 : utf8Len vs1 + 3 + 1 = utf8Len vs1 + lenUtf8 v := by omega
      rw [he3, hnstop 0]
    rw [hnext, hprev_entry]
    have he : utf8Len vs1 + lenUtf8 v - 1 = utf8Len vs1 + 3 := by omega
    rw [he, prevCBGo_cont _ _ 3 _ b3 (by omega) hb3g hb3l]
    have he2 : utf8Len vs1 + 3 - 1 = utf8Len vs1 + 2 := by omega
    rw [he2, prevCBGo_cont _ _ 2 _ b2 (by omega) hb2g hb2l]
    have he3 : utf8Len vs1 + 2 - 1 = utf8Len vs1 + 1 := by omega
    rw [he3, prevCBGo_cont _ _ 1 _ b1 (by omega) hb1g hb1l]
    have he4 : utf8Len vs1 + 1 - 1 = utf8Len vs1 := by omega
    rw [he4, hpstop 0]

/-- C5 witness: the amended round-trip theorem applied to the scalar list
for "a" followed by e-acute, at the boundary p = 1. -/
theorem c5_witness :
    prevCharBoundary (encodeList [97, 233])
      (nextCharBoundary (encodeList [97, 233]) 1) = 1 :=
  c5_char_boundary_roundtrip [97, 233] 1 (by decide) (by decide) (by decide)

/-! Claim C6: LSP position round-trip. -/

/-- Scalar-level analogue of `takeNl`: the first line of a scalar-value
sequence, up to and including a newline scalar. -/
def takeNlC : List Nat → List Nat
  | [] => []
  | v :: r => if v = 10 then [10] else v :: takeNlC r

/-- Scalar-level analogue of dropping the first line. -/
def dropNlC : List Nat → List Nat
  | [] => []
  | v :: r => if v = 10 then r else dropNlC r

theorem takeNlC_append_dropNlC (vs : List Nat) :
    takeNlC vs ++ dropNlC vs = vs := by
  induction vs with
  | nil => rfl
  | cons v r ih =>
    rw [takeNlC, dropNlC]
    by_cases h : v = 10
    · rw [if_pos h, if_pos h, h]
      rfl
    · rw [if_neg h, if_neg h, List.cons_append, ih]

theorem dropNlC_length_lt (vs : List Nat) (h : vs ≠ []) :
    (dropNlC vs).length < vs.length := by
  induction vs with
  | nil => exact absurd rfl h
  | cons v r ih =>
    rw [dropNlC]
    by_cases hv : v = 10
    · rw [if_pos hv]
      simp
    · rw [if_neg hv]
      by_cases hr : r = []
      · subst hr
        simp [dropNlC]
      · have := ih hr
        simp only [List.length_cons]
        omega

theorem mem_takeNlC (vs : List Nat) : ∀ x ∈ takeNlC vs, x ∈ vs := by
  induction vs with
  | nil => intro x hx; exact absurd hx (by simp [takeNlC])
  | cons v r ih =>
    intro x hx
    rw [takeNlC] at hx
    by_cases hv : v = 10
    · rw [if_pos hv] at hx
      simp at hx
      simp [hx, hv]
    · rw [if_neg hv] at hx
      rcases List.mem_cons.1 hx with h | h
      · simp [h]
      · exact List.mem_cons_of_mem v (ih x h)

theorem mem_dropNlC (vs : List Nat) : ∀ x ∈ dropNlC vs, x ∈ vs := by
  induction vs with
  | nil => intro x hx; exact absurd hx (by simp [dropNlC])
  | cons v r ih =>
    intro x hx
    rw [dropNlC] at hx
    by_cases hv : v = 10
    · rw [if_pos hv] at hx
      exact List.mem_cons_of_mem v hx
    · rw [if_neg hv] at hx
      exact List.mem_cons_of_mem v (ih x hx)

theorem takeNl_append_no10 (l1 l2 : List Nat) (h : ∀ b ∈ l1, b ≠ 10) :
    takeNl (l1 ++ l2) = l1 ++ takeNl l2 := by
  induction l1 with
  | nil => rfl
  | cons b r ih =>
    rw [List.cons_append, takeNl]
    have hb : b ≠ 10 := h b (by simp)
    rw [if_neg hb, ih fun x hx => h x (List.mem_cons_of_mem b hx)]
    rfl

theorem enc_no10 (v : Nat) (hv : v ≠ 10) :
    ∀ b ∈ utf8EncodeScalar v, b ≠ 10 := by
  intro b hb
  unfold utf8EncodeScalar at hb
  by_cases h1 : v < 128
  · rw [if_pos h1] at hb
    simp at hb
    omega
  · rw [if_neg h1] at hb
    by_cases h2 : v < 2048
    · rw [if_pos h2] at hb
      simp at hb
      rcases hb with h | h <;> omega
    · rw [if_neg h2] at hb
      by_cases h3 : v < 65536
      · rw [if_pos h3] at hb
        simp at hb
        rcases hb with h | h | h <;> omega
      · rw [if_neg h3] at hb
        simp at hb
        rcases hb with h | h | h | h <;> omega

/-- The first byte-level line of an encoded scalar sequence is the encoding
of the first scalar-level line. -/
theorem takeNl_encodeList (vs : List Nat) :
    takeNl (encodeList vs) = encodeList (takeNlC vs) := by
  induction vs with
  | nil => rfl
  | cons v r ih =>
    rw [encodeList_cons, takeNlC]
    by_cases hv : v = 10
    · rw [if_pos hv, hv]
      rfl
    · rw [if_neg hv, takeNl_append_no10 _ _ (enc_no10 v hv), ih,
        encodeList_cons]

theorem utf8Len_eq_zero (vs : List Nat) (h : utf8Len vs = 0) : vs = [] := by
  cases vs with
  | nil => rfl
  | cons v r =>
    rw [utf8Len_cons] at h
    have := lenUtf8_pos v
    omega

theorem utf8Len_pos (vs : List Nat) (h : vs ≠ []) : 1 ≤ utf8Len vs := by
  cases vs with
  | nil => exact absurd rfl h
  | cons v r =>
    rw [utf8Len_cons]
    have := lenUtf8_pos v
    omega

theorem lenUtf16_pos (v : Nat) : 1 ≤ lenUtf16 v := by
  unfold lenUtf16
  by_cases h : v < 65536 <;> simp [h]

theorem utf16Len_nil : utf16Len [] = 0 := rfl

theorem utf16Len_cons (v : Nat) (vs : List Nat) :
    utf16Len (v :: vs) = lenUtf16 v + utf16Len vs := by
  unfold utf16Len
  simp

/-- A boundary at `p ≤ total length` splits the scalar sequence into a
prefix of encoded length exactly `p` and a suffix. -/
theorem boundary_split (vs : List Nat) :
    ∀ p, IsBoundary vs p → p ≤ utf8Len vs →
      ∃ vs1 vs2, vs = vs1 ++ vs2 ∧ utf8Len vs1 = p := by
  induction vs with
  | nil =>
    intro p hb _
    unfold IsBoundary at hb
    exact ⟨[], [], rfl, by rw [hb]; rfl⟩
  | cons v r ih =>
    intro p hb hp
    unfold IsBoundary at hb
    rcases hb with h0 | ⟨hle, hrest⟩
    · exact ⟨[], v :: r, rfl, by rw [h0]; rfl⟩
    · have hple : p - lenUtf8 v ≤ utf8Len r := by
        rw [utf8Len_cons] at hp
        omega
      obtain ⟨vs1, vs2, heq, hlen⟩ := ih (p - lenUtf8 v) hrest hple
      refine ⟨v :: vs1, vs2, by rw [heq]; rfl, ?_⟩
      rw [utf8Len_cons]
      omega

/-- A boundary of a concatenation, past the first part, is a boundary of
the second part. -/
theorem boundary_suffix (xs : List Nat) :
    ∀ ys p, IsBoundary (xs ++ ys) p → utf8Len xs ≤ p →
      IsBoundary ys (p - utf8Len xs) := by
  induction xs with
  | nil =>
    intro ys p hb _
    simpa [utf8Len_nil] using hb
  | cons x r ih =>
    intro ys p hb hp
    rw [List.cons_append] at hb
    unfold IsBoundary at hb
    rw [utf8Len_cons] at hp
    have h1 := lenUtf8_pos x
    have h2 := utf8Len_pos
    rcases hb with h0 | ⟨hle, hrest⟩
    · omega
    · have := ih ys (p - lenUtf8 x) hrest (by omega)
      rw [utf8Len_cons]
      have he : p - (lenUtf8 x + utf8Len r) = p - lenUtf8 x - utf8Len r := by
        omega
      rw [he]
      exact this
theorem utf8Decode_nil : utf8Decode [] = [] := rfl

/-- One decoding step consumes exactly one encoded scalar. -/
theorem utf8DecodeGo_enc (fuel v : Nat) (tail : List Nat) (hv : IsScalar v) :
    utf8DecodeGo (fuel + 1) (utf8EncodeScalar v ++ tail) =
      v :: utf8DecodeGo fuel tail := by
  have hv' := hv
  unfold IsScalar at hv'
  unfold utf8EncodeScalar
  by_cases h1 : v < 128
  · rw [if_pos h1]
    rw [List.cons_append, List.nil_append, utf8DecodeGo.eq_def]
    simp only []
    rw [if_pos h1]
  · rw [if_neg h1]
    by_cases h2 : v < 2048
    · rw [if_pos h2]
      rw [List.cons_append, List.cons_append, List.nil_append,
        utf8DecodeGo.eq_def]
      simp only []
      rw [if_neg (by omega : ¬ 192 + v / 64 < 128)]
      rw [if_neg (by omega : ¬ 192 + v / 64 < 194)]
      rw [if_pos (by omega : 192 + v / 64 < 224)]
      rw [if_pos (by omega : 128 ≤ 128 + v % 64 ∧ 128 + v % 64 < 192)]
      have he : (192 + v / 64 - 192) * 64 + (128 + v % 64 - 128) = v := by
        omega
      rw [he]
    · rw [if_neg h2]
      by_cases h3 : v < 65536
      · rw [if_pos h3]
        rw [List.cons_append, List.cons_append, List.cons_append,
          List.nil_append, utf8DecodeGo.eq_def]
        simp only []
        rw [if_neg (by omega : ¬ 224 + v / 4096 < 128)]
        rw [if_neg (by omega : ¬ 224 + v / 4096 < 194)]
        rw [if_neg (by omega : ¬ 224 + v / 4096 < 224)]
        rw [if_pos (by omega : 224 + v / 4096 < 240)]
        rw [if_pos (by omega : 128 ≤ 128 + v / 64 % 64 ∧
          128 + v / 64 % 64 < 192 ∧ 128 ≤ 128 + v % 64 ∧ 128 + v % 64 < 192)]
        have he : (224 + v / 4096 - 224) * 4096 +
            (128 + v / 64 % 64 - 128) * 64 + (128 + v % 64 - 128) = v := by
          omega
        rw [he]
        rw [if_pos ⟨by omega, hv⟩]
      · rw [if_neg h3]
        have hv4 : v < 1114112 := by omega
        rw [List.cons_append, List.cons_append, List.cons_append,
          List.cons_append, List.nil_append, utf8DecodeGo.eq_def]
        simp only []
        rw [if_neg (by omega : ¬ 240 + v / 262144 < 128)]
        rw [if_neg (by omega : ¬ 240 + v / 262144 < 194)]
        rw [if_neg (by omega : ¬ 240 + v / 262144 < 224)]
        rw [if_neg (by omega : ¬ 240 + v / 262144 < 240)]
        rw [if_pos (by omega : 240 + v / 262144 < 245)]
        rw [if_pos (by omega : 128 ≤ 128 + v / 4096 % 64 ∧
          128 + v / 4096 % 64 < 192 ∧ 128 ≤ 128 + v / 64 % 64 ∧
          128 + v / 64 % 64 < 192 ∧ 128 ≤ 128 + v % 64 ∧ 128 + v % 64 < 192)]
        have he : (240 + v / 262144 - 240) * 262144 +
            (128 + v / 4096 % 64 - 128) * 4096 +
            (128 + v / 64 % 64 - 128) * 64 + (128 + v % 64 - 128) = v := by
          omega
        rw [he]
        rw [if_pos ⟨by omega, by omega⟩]

theorem utf8DecodeGo_encodeList :
    ∀ fuel vs, (∀ v ∈ vs, IsScalar v) → utf8Len vs ≤ fuel →
      utf8DecodeGo fuel (encodeList vs) = vs := by
  intro fuel
  induction fuel with
  | zero =>
    intro vs _ hlen
    rw [utf8Len_eq_zero vs (by omega)]
    rfl
  | succ f ih =>
    intro vs hvs hlen
    cases vs with
    | nil => rfl
    | cons v r =>
      rw [encodeList_cons, utf8DecodeGo_enc f v _ (hvs v (by simp))]
      rw [ih r (fun x hx => hvs x (List.mem_cons_of_mem v hx)) (by
        rw [utf8Len_cons] at hlen
        have := lenUtf8_pos v
        omega)]

/-- Decoding inverts encoding on scalar sequences. -/
theorem utf8Decode_encodeList (vs : List Nat) (hvs : ∀ v ∈ vs, IsScalar v) :
    utf8Decode (encodeList vs) = vs := by
  unfold utf8Decode
  exact utf8DecodeGo_encodeList (encodeList vs).length vs hvs (Nat.le_refl _)
/-- The UTF-16 column loop stops after consuming exactly the characters
whose UTF-16 length sums to the target. -/
theorem colLoop_spec :
    ∀ (ls1 ls2 : List Nat) (cu bo : Nat),
      colLoop (cu + utf16Len ls1) (ls1 ++ ls2) cu bo = bo + utf8Len ls1 := by
  intro ls1
  induction ls1 with
  | nil =>
    intro ls2 cu bo
    rw [utf16Len_nil, utf8Len_nil, Nat.add_zero, Nat.add_zero]
    cases ls2 with
    | nil => rfl
    | cons v r =>
      rw [List.nil_append, colLoop, if_pos (Nat.le_refl cu)]
  | cons v r ih =>
    intro ls2 cu bo
    rw [List.cons_append, colLoop]
    rw [if_neg (by
      have h1 := lenUtf16_pos v
      rw [utf16Len_cons]
      omega)]
    have he : cu + utf16Len (v :: r) = cu + lenUtf16 v + utf16Len r := by
      rw [utf16Len_cons]
      omega
    rw [he, ih ls2 (cu + lenUtf16 v) (bo + lenUtf8 v), utf8Len_cons]
    omega
theorem takeNlC_ne_nil (vs : List Nat) (h : vs ≠ []) : takeNlC vs ≠ [] := by
  cases vs with
  | nil => exact absurd rfl h
  | cons v r =>
    rw [takeNlC]
    by_cases hv : v = 10
    · rw [if_pos hv]
      simp
    · rw [if_neg hv]
      simp

/-- Joint characterisation of the two LSP conversion loops from a line
start `s`: the position loop locates the line containing `s + q` after `k`
line steps and reports UTF-16 column `c`; the byte loop skips those `k`
lines and maps `c` back to the byte offset `s + q`. -/
theorem lspAux :
    ∀ m vs, vs.length ≤ m → vs ≠ [] → (∀ v ∈ vs, IsScalar v) →
    ∀ (content : List Nat) (s q : Nat),
      content.drop s = encodeList vs → IsBoundary vs q → q ≤ utf8Len vs →
      ∃ k c,
        (∀ n fuelA, content.length - s + 1 ≤ fuelA →
          posToLspGo (s + q) fuelA ⟨⟨content, s⟩⟩ n = (n + k, c)) ∧
        (∀ fuelB, content.length - s + 1 ≤ fuelB →
          lspToByteGo content c fuelB ⟨⟨content, s⟩⟩ k = s + q) := by
  intro m
  induction m with
  | zero =>
    intro vs hm hne
    cases vs with
    | nil => exact absurd rfl hne
    | cons v r => simp at hm
  | succ m ih =>
    intro vs hm hne hvs content s q hdrop hb hq
    have hsl : content.length - s = utf8Len vs := by
      have := congrArg List.length hdrop
      rw [List.length_drop] at this
      exact this
    have hvpos : 1 ≤ utf8Len vs := utf8Len_pos vs hne
    have hs : s < content.length := by omega
    have hsplitv : takeNlC vs ++ dropNlC vs = vs := takeNlC_append_dropNlC vs
    set ls := takeNlC vs with hls_def
    set rest := dropNlC vs with hrest_def
    have hlsne : ls ≠ [] := takeNlC_ne_nil vs hne
    have hls_sc : ∀ x ∈ ls, IsScalar x := fun x hx => hvs x (mem_takeNlC vs x hx)
    have hrest_sc : ∀ x ∈ rest, IsScalar x :=
      fun x hx => hvs x (mem_dropNlC vs x hx)
    have hline : takeNl (content.drop s) = encodeList ls := by
      rw [hdrop, takeNl_encodeList]
    have hnext := lineNext_spec content s hs
    rw [hline] at hnext
    have hul : (encodeList ls).length = utf8Len ls := rfl
    rw [hul] at hnext
    have hqv : q ≤ utf8Len ls + utf8Len rest := by
      rw [← utf8Len_append, hsplitv]
      exact hq
    by_cases hcase : q ≤ utf8Len ls
    · obtain ⟨vs1, vs2, hveq, hv1len⟩ := boundary_split vs q hb hq
      have happ : ls ++ rest = vs1 ++ vs2 := by rw [hsplitv, hveq]
      have hls12 : ∃ ls2, ls = vs1 ++ ls2 := by
        rcases List.append_eq_append_iff.1 happ with ⟨a, ha1, _⟩ | ⟨a, ha1, _⟩
        · have hl1 : utf8Len vs1 = utf8Len ls + utf8Len a := by
            rw [ha1, utf8Len_append]
          have ha0 : a = [] := utf8Len_eq_zero a (by omega)
          refine ⟨[], ?_⟩
          rw [ha1, ha0]
          simp
        · exact ⟨a, ha1⟩
      obtain ⟨ls2, hls12⟩ := hls12
      have hvs1_sc : ∀ x ∈ vs1, IsScalar x := fun x hx =>
        hvs x (by rw [hveq]; exact List.mem_append_left vs2 hx)
      refine ⟨0, utf16Len vs1, ?_, ?_⟩
      · intro n fuelA hfA
        cases fuelA with
        | zero => omega
        | succ f =>
          rw [posToLspGo, hnext]
          simp only []
          rw [if_pos ⟨Nat.le_add_right s q, by omega⟩]
          have h1 : s + q - s = q := by omega
          have h2 : min q (encodeList ls).length = q := by omega
          rw [h1, h2]
          have htake : (encodeList ls).take q = encodeList vs1 := by
            rw [hls12, encodeList_append, ← hv1len]
            exact List.take_left _ _
          rw [htake, utf8Decode_encodeList vs1 hvs1_sc, Nat.add_zero]
      · intro fuelB hfB
        cases fuelB with
        | zero => omega
        | succ f =>
          rw [lspToByteGo]
          simp only []
          rw [hnext]
          simp only []
          rw [utf8Decode_encodeList ls hls_sc, hls12]
          have hc : utf16Len vs1 = 0 + utf16Len vs1 := by omega
          rw [hc, colLoop_spec vs1 ls2 0 0]
          have h3 : min (0 + utf8Len vs1) (encodeList (vs1 ++ ls2)).length =
              q := by
            have h4 : (encodeList (vs1 ++ ls2)).length = utf8Len ls := by
              rw [← hls12]
              rfl
            rw [h4]
            omega
          rw [h3]
    · have hrestne : rest ≠ [] := by
        intro h
        rw [h, utf8Len_nil] at hqv
        omega
      have hlspos : 1 ≤ utf8Len ls := utf8Len_pos ls hlsne
      have hdrop' : content.drop (s + utf8Len ls) = encodeList rest := by
        rw [← List.drop_drop, hdrop, ← hsplitv, encodeList_append]
        exact List.drop_left _ _
      have hb' : IsBoundary rest (q - utf8Len ls) := by
        apply boundary_suffix ls rest q _ (by omega)
        rw [hsplitv]
        exact hb
      have hm' : rest.length ≤ m := by
        have hdl := dropNlC_length_lt vs hne
        rw [← hrest_def] at hdl
        omega
      obtain ⟨k, c, hA, hB⟩ := ih rest hm' hrestne hrest_sc content
        (s + utf8Len ls) (q - utf8Len ls) hdrop' hb' (by omega)
      refine ⟨k + 1, c, ?_, ?_⟩
      · intro n fuelA hfA
        cases fuelA with
        | zero => omega
        | succ f =>
          rw [posToLspGo, hnext]
          simp only []
          rw [if_neg (by
            intro hand
            exact hcase (by omega))]
          have he : s + q = s + utf8Len ls + (q - utf8Len ls) := by omega
          rw [he, hA (n + 1) f (by omega)]
          have he2 : n + 1 + k = n + (k + 1) := by omega
          rw [he2]
      · intro fuelB hfB
        cases fuelB with
        | zero => omega
        | succ f =>
          rw [lspToByteGo]
          rw [hnext]
          simp only []
          rw [hB f (by omega)]
          omega
/-- C6: for every buffer whose content is the valid UTF-8 encoding of the
scalar values `vs` and every byte offset `p` on a character boundary
(`0 ≤ p ≤ length`), converting `p` to an LSP (line, UTF-16 code-unit
column) pair and back yields `p`. -/
theorem c6_lsp_round_trip (vs : List Nat) (p : Nat)
    (hvs : ∀ v ∈ vs, IsScalar v) (hb : IsBoundary vs p)
    (hp : p ≤ utf8Len vs) :
    lspPositionToByte (encodeList vs)
      (positionToLspPosition (encodeList vs) p).1
      (positionToLspPosition (encodeList vs) p).2 = p := by
  by_cases hne : vs = []
  · subst hne
    have hp0 : p = 0 := by
      rw [utf8Len_nil] at hp
      omega
    subst hp0
    rfl
  · have h0 : lineIterator (encodeList vs) 0 = ⟨⟨encodeList vs, 0⟩⟩ := by
      unfold lineIterator LineIterator.new
      have hiter : iterAt (encodeList vs) (min 0 (encodeList vs).length) =
          ⟨encodeList vs, 0⟩ := by
        unfold iterAt
        congr 1
        omega
      rw [hiter]
      simp only []
      rw [scanBack_spec (encodeList vs) 0 0 le_rfl, lineStartOf]
    obtain ⟨k, c, hA, hB⟩ := lspAux vs.length vs le_rfl hne hvs
      (encodeList vs) 0 p (by rw [List.drop_zero]) hb hp
    have hA0 := hA 0 ((encodeList vs).length + 1) (by omega)
    rw [Nat.zero_add] at hA0
    unfold positionToLspPosition
    rw [h0, hA0]
    simp only []
    unfold lspPositionToByte
    rw [h0]
    have hB0 := hB ((encodeList vs).length + 1) (by omega)
    rw [Nat.zero_add]
    rw [hB0, Nat.zero_add]

/-- C6 witness: the round trip at offset 5 (a boundary after a 4-byte
musical-symbol character) of the two-line text with scalars
`['a', U+1D11E, newline, 'b']`. -/
theorem c6_witness :
    lspPositionToByte (encodeList [97, 119070, 10, 98])
      (positionToLspPosition (encodeList [97, 119070, 10, 98]) 5).1
      (positionToLspPosition (encodeList [97, 119070, 10, 98]) 5).2 = 5 :=
  c6_lsp_round_trip [97, 119070, 10, 98] 5 (by decide) (by decide) (by decide)
